import Mathlib

/-!
Verification of the ComfyUI-workflow → Python translator
(`server/translator/{parser,patterns,codegen,translator}.py`).

The translator is shallowly embedded: JSON-style documents are the
`Json` inductive below, Python dictionaries are association lists in
insertion order, and Python exceptions are modelled with `Except PyErr`.
Functions keep the source's names (snake_case turned lowerCamel where
Lean style demands it).  Python-specific value semantics that the source
relies on — `isinstance(True, int)` being true, `str()` rendering,
truthiness, `dict.get` defaults — are embedded by dedicated `py*`
helpers.
-/

set_option maxHeartbeats 1600000

namespace RawDiffusion

/-- JSON-style values as decoded by `json.loads`: Python `None`, `bool`,
`int`, `float`, `str`, `list`, `dict`.  Floats are represented exactly as
rationals; the translator only copies float literals verbatim and
compares them with `>` / `==`, so no binary-float rounding behaviour is
involved in any verified property. -/
inductive Json where
  | null
  | bool (b : Bool)
  | int (n : Int)
  | float (q : ℚ)
  | str (s : String)
  | arr (elems : List Json)
  | obj (fields : List (String × Json))
deriving Repr

mutual

/-- Structural (= Python `==` on JSON trees) equality, decidably. -/
def Json.beq : Json → Json → Bool
  | .null, .null => true
  | .bool a, .bool b => a == b
  | .int a, .int b => a == b
  | .float a, .float b => a == b
  | .str a, .str b => a == b
  | .arr a, .arr b => Json.beqList a b
  | .obj a, .obj b => Json.beqFields a b
  | _, _ => false

def Json.beqList : List Json → List Json → Bool
  | [], [] => true
  | a :: as, b :: bs => Json.beq a b && Json.beqList as bs
  | _, _ => false

def Json.beqFields : List (String × Json) → List (String × Json) → Bool
  | [], [] => true
  | (ka, va) :: as, (kb, vb) :: bs => ka == kb && Json.beq va vb && Json.beqFields as bs
  | _, _ => false

end

mutual

theorem Json.beq_refl : ∀ j : Json, Json.beq j j = true
  | .null => rfl
  | .bool b => by simp [Json.beq]
  | .int n => by simp [Json.beq]
  | .float q => by simp [Json.beq]
  | .str s => by simp [Json.beq]
  | .arr xs => by simp [Json.beq]; exact Json.beqList_refl xs
  | .obj fs => by simp [Json.beq]; exact Json.beqFields_refl fs

theorem Json.beqList_refl : ∀ l : List Json, Json.beqList l l = true
  | [] => rfl
  | x :: xs => by
      simp [Json.beqList]
      exact ⟨Json.beq_refl x, Json.beqList_refl xs⟩

theorem Json.beqFields_refl : ∀ l : List (String × Json), Json.beqFields l l = true
  | [] => rfl
  | (k, v) :: xs => by
      simp [Json.beqFields]
      exact ⟨Json.beq_refl v, Json.beqFields_refl xs⟩

end

mutual

theorem Json.eq_of_beq : ∀ {a b : Json}, Json.beq a b = true → a = b
  | .null, .null, _ => rfl
  | .bool a, .bool b, h => by simp [Json.beq] at h; simp [h]
  | .int a, .int b, h => by simp [Json.beq] at h; simp [h]
  | .float a, .float b, h => by simp [Json.beq] at h; simp [h]
  | .str a, .str b, h => by simp [Json.beq] at h; simp [h]
  | .arr a, .arr b, h => by
      simp [Json.beq] at h
      have := Json.eqList_of_beq h
      simp [this]
  | .obj a, .obj b, h => by
      simp [Json.beq] at h
      have := Json.eqFields_of_beq h
      simp [this]

theorem Json.eqList_of_beq : ∀ {a b : List Json}, Json.beqList a b = true → a = b
  | [], [], _ => rfl
  | x :: xs, y :: ys, h => by
      simp [Json.beqList] at h
      have h1 := Json.eq_of_beq h.1
      have h2 := Json.eqList_of_beq h.2
      simp [h1, h2]

theorem Json.eqFields_of_beq : ∀ {a b : List (String × Json)}, Json.beqFields a b = true → a = b
  | [], [], _ => rfl
  | (k, v) :: xs, (k', v') :: ys, h => by
      simp [Json.beqFields] at h
      have h1 := Json.eq_of_beq h.1.2
      have h2 := Json.eqFields_of_beq h.2
      simp [h.1.1, h1, h2]

end

instance : DecidableEq Json := fun a b =>
  if h : Json.beq a b = true then
    .isTrue (Json.eq_of_beq h)
  else
    .isFalse (fun he => h (he ▸ Json.beq_refl a))

instance : BEq Json := ⟨Json.beq⟩

/-- Python exceptions that the translator can raise. -/
inductive PyErr where
  | attributeError (s : String)
  | typeError (s : String)
deriving Repr, DecidableEq

/-- `isinstance(v, (str, int))` — Python booleans are instances of `int`. -/
def pyIsInstStrOrInt : Json → Bool
  | .str _ => true
  | .int _ => true
  | .bool _ => true
  | _ => false

/-- `isinstance(v, int)` — Python booleans are instances of `int`. -/
def pyIsInstInt : Json → Bool
  | .int _ => true
  | .bool _ => true
  | _ => false

/-- Exact decimal rendering of a rational when its denominator divides a
power of ten (the case for every float literal a JSON document can carry);
other rationals fall back to a fraction rendering.  Python renders floats
via shortest-roundtrip repr; this agrees on terminating decimals, which is
the only case the source can produce from a document, and no verified
claim depends on float rendering. -/
def ratDecimalString (q : ℚ) : String :=
  let sign := if q < 0 then "-" else ""
  let q := |q|
  let rec findPow : Nat → Option Nat
    | 0 => if q.den = 1 then some 0 else none
    | n + 1 =>
      match findPow n with
      | some k => some k
      | none => if (q * ((10 : ℚ) ^ (n + 1))).den = 1 then some (n + 1) else none
  match findPow 20 with
  | some 0 => sign ++ toString q.num ++ ".0"
  | some k =>
    let scaled := (q * ((10 : ℚ) ^ k)).num.natAbs
    let digits := toString scaled
    let digits := if digits.length ≤ k then
        String.mk (List.replicate (k + 1 - digits.length) '0') ++ digits
      else digits
    let whole := digits.dropRight k
    let frac := digits.takeRight k
    sign ++ whole ++ "." ++ frac
  | none => sign ++ toString q.num ++ "/" ++ toString q.den

mutual

/-- Python `repr()` of a JSON-style value (used inside list/dict
rendering; strings are quoted). -/
def pyRepr : Json → String
  | .null => "None"
  | .bool true => "True"
  | .bool false => "False"
  | .int n => toString n
  | .float q => ratDecimalString q
  | .str s => "'" ++ s ++ "'"
  | .arr xs => "[" ++ pyReprList xs ++ "]"
  | .obj fs => "\x7b" ++ pyReprFields fs ++ "\x7d"

def pyReprList : List Json → String
  | [] => ""
  | [x] => pyRepr x
  | x :: xs => pyRepr x ++ ", " ++ pyReprList xs

def pyReprFields : List (String × Json) → String
  | [] => ""
  | [(k, v)] => "'" ++ k ++ "': " ++ pyRepr v
  | (k, v) :: xs => "'" ++ k ++ "': " ++ pyRepr v ++ ", " ++ pyReprFields xs

end

/-- Python `str()` of a JSON-style value (as used by f-strings and
`str(...)`): like `repr` except that strings print unquoted. -/
def pyStr : Json → String
  | .str s => s
  | v => pyRepr v

/-- Python truthiness of a JSON-style value. -/
def pyTruthy : Json → Bool
  | .null => false
  | .bool b => b
  | .int n => n != 0
  | .float q => q != 0
  | .str s => s ≠ ""
  | .arr xs => !xs.isEmpty
  | .obj fs => !fs.isEmpty

/-- `v > 0` in Python: defined for numbers and booleans, a `TypeError`
otherwise. -/
def pyGtZero : Json → Except PyErr Bool
  | .int n => .ok (0 < n)
  | .bool b => .ok b
  | .float q => .ok (0 < q)
  | _ => .error (.typeError "unsupported operand types for >")

/-- `s.lower()` on a value: only strings have `.lower`. -/
def pyLower : Json → Except PyErr String
  | .str s => .ok s.toLower
  | _ => .error (.attributeError "lower")

/-- `needle in hay` for Python strings (substring containment). -/
def strContainsSub (hay needle : List Char) : Bool :=
  match hay with
  | [] => needle.isEmpty
  | _ :: t => needle.isPrefixOf hay || strContainsSub t needle

/-- `needle in v` where `v` must be a string, else `TypeError`. -/
def pyInStr (needle : String) : Json → Except PyErr Bool
  | .str s => .ok (strContainsSub s.toList needle.toList)
  | _ => .error (.typeError "argument of type is not iterable")

/-- First-match association-list lookup = `dict.get` over a dict whose
keys are distinct (Python dicts cannot carry duplicates). -/
def dictLookup {α : Type} (l : List (String × α)) (k : String) : Option α :=
  match l with
  | [] => none
  | (k', v) :: t => if k' = k then some v else dictLookup t k

/-- `d[k] = v` on a Python dict: replace in place when the key exists,
append otherwise. -/
def dictInsert {α : Type} (l : List (String × α)) (k : String) (v : α) :
    List (String × α) :=
  match l with
  | [] => [(k, v)]
  | (k', v') :: t => if k' = k then (k, v) :: t else (k', v') :: dictInsert t k v

/-- `d.get(k, dflt)`. -/
def dictGetD {α : Type} (l : List (String × α)) (k : String) (dflt : α) : α :=
  (dictLookup l k).getD dflt

/-! ## Parser (`parser.py`) -/

/-- `NodeInput` dataclass: a literal (value retained verbatim) or a link
(value `None`, source identifier normalized with `str()`, raw output
index retained). -/
structure NodeInput where
  name : String
  value : Json
  is_link : Bool
  source_node : Option String
  source_output : Option Json
deriving Repr, DecidableEq

/-- `Node` dataclass.  `class_type` is whatever the document supplied
(`node_data.get('class_type', 'Unknown')` performs no type check), so it
stays a `Json`.  `output_connections` entries are
`(target_node, target_input, output_idx)`. -/
structure Node where
  id : String
  class_type : Json
  inputs : List (String × NodeInput)
  output_connections : List (String × String × Option Json)
  execution_order : Int
deriving Repr, DecidableEq

/-- `WorkflowGraph` dataclass. -/
structure WorkflowGraph where
  nodes : List (String × Node)
  root_nodes : List String
  terminal_nodes : List String
  execution_order : List String
deriving Repr, DecidableEq

/-- `WorkflowParser._parse_input`: links are two-element arrays whose
first element satisfies `isinstance(·, (str, int))` and whose second
satisfies `isinstance(·, int)`; anything else is a literal retained
verbatim. -/
def parseInput (name : String) (value : Json) : NodeInput :=
  match value with
  | .arr [v0, v1] =>
    if pyIsInstStrOrInt v0 && pyIsInstInt v1 then
      { name := name, value := .null, is_link := true,
        source_node := some (pyStr v0), source_output := some v1 }
    else
      { name := name, value := value, is_link := false,
        source_node := none, source_output := none }
  | _ =>
      { name := name, value := value, is_link := false,
        source_node := none, source_output := none }

/-- Truthiness of `Optional[str]`: `None` and the empty string are falsy. -/
def optStrTruthy : Option String → Bool
  | none => false
  | some s => s ≠ ""

/-- `WorkflowParser.OUTPUT_NODES`. -/
def OUTPUT_NODES : List String :=
  ["SaveImage", "PreviewImage", "SaveLatent", "PreviewLatent",
   "VHS_VideoCombine", "SaveAnimatedWEBP", "SaveAnimatedPNG"]

/-- `class_type in {set of class-name strings}`: only string-valued
`class_type`s can be members. -/
def classIs (ct : Json) (names : List String) : Bool :=
  match ct with
  | .str s => names.contains s
  | _ => false

/-- `WorkflowParser._parse_node`: `class_type` defaults to `"Unknown"`,
the `inputs` mapping defaults to `{}`; a non-mapping node record or
`inputs` value raises `AttributeError` (`.get` / `.items` missing). -/
def parseNode (node_id : String) (node_data : Json) : Except PyErr Node :=
  match node_data with
  | .obj fields =>
    match dictGetD fields "inputs" (.obj []) with
    | .obj inputFields =>
      .ok { id := node_id,
            class_type := dictGetD fields "class_type" (.str "Unknown"),
            inputs := inputFields.foldl
              (fun acc p => dictInsert acc p.1 (parseInput p.1 p.2)) [],
            output_connections := [],
            execution_order := -1 }
    | _ => .error (.attributeError "items")
  | _ => .error (.attributeError "get")

/-- First pass of `WorkflowParser.parse`: build every node, keyed by
its identifier (`graph.nodes[node_id] = node`). -/
def parseNodesPass (fields : List (String × Json)) :
    Except PyErr (List (String × Node)) :=
  fields.foldlM (fun acc p => do
    let n ← parseNode p.1 p.2
    pure (dictInsert acc p.1 n)) []

/-- Append one connection tuple to the named source node (the first —
and, keys being distinct, only — entry with that identifier). -/
def appendConn (m : List (String × Node)) (src : String)
    (c : String × String × Option Json) : List (String × Node) :=
  match m with
  | [] => []
  | (k, n) :: t =>
    if k = src then
      (k, { n with output_connections := n.output_connections ++ [c] }) :: t
    else (k, n) :: appendConn t src c

/-- One inner step of `WorkflowParser._resolve_links`: for a link input
of node `tgt` whose source identifier is truthy and present in the map,
append `(tgt, input_name, source_output)` to the source's connections. -/
def resolveStep (acc : List (String × Node)) (tgt : String)
    (ip : String × NodeInput) : List (String × Node) :=
  if ip.2.is_link && optStrTruthy ip.2.source_node then
    match ip.2.source_node with
    | some s =>
      if (dictLookup acc s).isSome then
        appendConn acc s (tgt, ip.1, ip.2.source_output)
      else acc
    | none => acc
  else acc

/-- `WorkflowParser._resolve_links`: iterate every node's inputs in
insertion order, appending connection tuples to source nodes.  The
iterated `(id, inputs)` pairs are snapshotted first because the fold
only ever mutates `output_connections`, never `inputs`. -/
def resolveLinks (m : List (String × Node)) : List (String × Node) :=
  (m.map (fun p => (p.1, p.2.inputs))).foldl
    (fun acc pr => pr.2.foldl (fun acc2 ip => resolveStep acc2 pr.1 ip) acc) m

/-- `WorkflowParser._analyze_graph`, root half: nodes with no link
inputs. -/
def rootNodesOf (m : List (String × Node)) : List String :=
  (m.filter (fun p => !(p.2.inputs.any (fun ip => ip.2.is_link)))).map (·.1)

/-- `WorkflowParser._analyze_graph`, terminal half: nodes with no
outgoing connections or whose class is in the output registry. -/
def terminalNodesOf (m : List (String × Node)) : List String :=
  (m.filter (fun p =>
    p.2.output_connections.isEmpty || classIs p.2.class_type OUTPUT_NODES)).map (·.1)

/-- Number of link inputs of a node. -/
def linkInputCount (n : Node) : Nat :=
  (n.inputs.filter (fun ip => ip.2.is_link)).length

/-- The `in_degree` table after its construction loop: the `defaultdict`
increments `in_degree[node_id]` once per link input, so (keys being
distinct) each present node maps to its link-input count and every other
identifier to the default 0. -/
def deg0 (m : List (String × Node)) : String → Int := fun x =>
  match dictLookup m x with
  | some n => (linkInputCount n : Int)
  | none => 0

/-- Pointwise function update (the `in_degree[t] -= 1` store). -/
def updFn (f : String → Int) (k : String) (v : Int) : String → Int :=
  fun x => if x = k then v else f x

/-- `node.output_connections` of the named node; the queue only ever
holds existing identifiers (proved below), matching `graph.nodes[nid]`
never raising `KeyError` in the source. -/
def connsOf (m : List (String × Node)) (nid : String) :
    List (String × String × Option Json) :=
  match dictLookup m nid with
  | some n => n.output_connections
  | none => []

/-- Set a node's `execution_order` field. -/
def setExec (m : List (String × Node)) (nid : String) (idx : Int) :
    List (String × Node) :=
  match m with
  | [] => []
  | (k, n) :: t =>
    if k = nid then (k, { n with execution_order := idx }) :: t
    else (k, n) :: setExec t nid idx

/-- `queue.sort()` — Python sorts strings lexicographically by code
point, which is exactly `String`'s linear order. -/
def sortQueue (q : List String) : List String :=
  List.insertionSort (fun a b : String => a ≤ b) q

/-- Decrement pass of one loop iteration: walk the emitted node's
connections, decrement each target's in-degree, enqueue targets that
reach zero. -/
def decStep (st : (String → Int) × List String)
    (c : String × String × Option Json) : (String → Int) × List String :=
  let d' := updFn st.1 c.1 (st.1 c.1 - 1)
  if d' c.1 == 0 then (d', st.2 ++ [c.1]) else (d', st.2)

/-- The `while queue:` loop of `_compute_execution_order`, with explicit
fuel.  Each iteration sorts the queue, pops its head, records it in the
order, stamps its `execution_order`, and runs the decrement pass.
`2·|nodes| + 1` fuel is proved sufficient below (the loop runs at most
once per initial queue entry plus once per in-degree hitting zero). -/
def kahnLoop (fuel : Nat) (m : List (String × Node)) (deg : String → Int)
    (queue : List String) (order : List String) (idx : Int) :
    List (String × Node) × List String × List String × (String → Int) :=
  match fuel with
  | 0 => (m, order, queue, deg)
  | fuel + 1 =>
    match sortQueue queue with
    | [] => (m, order, [], deg)
    | nid :: rest =>
      let m' := setExec m nid idx
      let step := (connsOf m nid).foldl decStep (deg, rest)
      kahnLoop fuel m' step.1 step.2 (order ++ [nid]) (idx + 1)

/-- Fuel that always suffices for `kahnLoop` (proved below): the loop
runs at most once per queue seed plus once per in-degree unit, so the
node count plus twice the total link-input count bounds the iteration
count. -/
def kahnFuel (m : List (String × Node)) : Nat :=
  m.length + 2 * (m.map (fun p => linkInputCount p.2)).sum + 1

/-- `WorkflowParser._compute_execution_order`: build the in-degree
table, seed the queue with zero-in-degree nodes, run the loop; returns
the node map with stamped `execution_order` fields and the order. -/
def computeExecutionOrder (m : List (String × Node)) :
    List (String × Node) × List String :=
  let q0 := (m.map (·.1)).filter (fun x => deg0 m x == 0)
  let r := kahnLoop (kahnFuel m) m (deg0 m) q0 [] 0
  (r.1, r.2.1)

/-- `WorkflowParser.parse`: the four passes.  A non-mapping document
raises `AttributeError` at `workflow_json.items()`. -/
def parse (workflow_json : Json) : Except PyErr WorkflowGraph :=
  match workflow_json with
  | .obj fields => do
    let m0 ← parseNodesPass fields
    let m1 := resolveLinks m0
    let roots := rootNodesOf m1
    let terms := terminalNodesOf m1
    let r := computeExecutionOrder m1
    pure { nodes := r.1, root_nodes := roots, terminal_nodes := terms,
           execution_order := r.2 }
  | _ => .error (.attributeError "items")

/-- Shape condition under which `parse` succeeds: the document is a
mapping, every node record is a mapping, and every present `inputs`
value is a mapping.  (Cycles and dangling links are *not* restricted.) -/
def wellShapedDoc : Json → Bool
  | .obj fields => fields.all (fun p =>
      match p.2 with
      | .obj nf =>
        match dictGetD nf "inputs" (.obj []) with
        | .obj _ => true
        | _ => false
      | _ => false)
  | _ => false

/-! ## Pattern recognizer (`patterns.py`) -/

/-- `PatternMatch` dataclass.  The `sub_patterns` field is omitted: the
source never constructs a non-empty one and never reads it. -/
structure PatternMatch where
  pattern_type : String
  nodes : List String
  config : List (String × Json)
deriving Repr, DecidableEq

/-- `PatternRecognizer._get_input_value`: the literal value of a node's
own input; links and missing inputs yield the default.  No graph is
consulted — link targets are never traced here. -/
def getInputValue (node : Node) (iname : String) (dflt : Json) : Json :=
  match dictLookup node.inputs iname with
  | some inp => if inp.is_link then dflt else inp.value
  | none => dflt

/-- `graph.nodes.get(k)` where `k` is an `Optional[str]`. -/
def nodesGet (g : WorkflowGraph) (k : Option String) : Option Node :=
  match k with
  | some s => dictLookup g.nodes s
  | none => none

/-- Checkpoint-loader classes accepted by base-pattern detection. -/
def CHECKPOINT_CLASSES : List String :=
  ["CheckpointLoaderSimple", "CheckpointLoader", "unCLIPCheckpointLoader"]

/-- Sampler classes accepted by base-pattern detection. -/
def BASE_SAMPLER_CLASSES : List String :=
  ["KSampler", "KSamplerAdvanced", "SamplerCustom"]

/-- First checkpoint loader in iteration order. -/
def firstCheckpoint (g : WorkflowGraph) : Option Node :=
  (g.nodes.find? (fun p => classIs p.2.class_type CHECKPOINT_CLASSES)).map (·.2)

/-- First sampler in iteration order. -/
def firstSampler (g : WorkflowGraph) : Option Node :=
  (g.nodes.find? (fun p => classIs p.2.class_type BASE_SAMPLER_CLASSES)).map (·.2)

/-- The classes `_has_refiner` counts (note: a strictly smaller set than
`CHECKPOINT_CLASSES` — `unCLIPCheckpointLoader` is not counted). -/
def REFINER_CHECKPOINT_CLASSES : List String :=
  ["CheckpointLoaderSimple", "CheckpointLoader"]

/-- The `checkpoint_count` sum in `_has_refiner`. -/
def checkpointLoaderCount (g : WorkflowGraph) : Nat :=
  (g.nodes.filter (fun p => classIs p.2.class_type REFINER_CHECKPOINT_CLASSES)).length

/-- The `KSamplerAdvanced` scan of `_has_refiner`: return `True` at the
first node whose `start_at_step` literal compares greater than zero; the
Python `>` raises `TypeError` on non-numeric literals. -/
def refinerScan : List (String × Node) → Except PyErr Bool
  | [] => .ok false
  | p :: t =>
    if p.2.class_type = .str "KSamplerAdvanced" then do
      let b ← pyGtZero (getInputValue p.2 "start_at_step" (.int 0))
      if b then pure true else refinerScan t
    else refinerScan t

/-- `PatternRecognizer._has_refiner`. -/
def hasRefiner (g : WorkflowGraph) : Except PyErr Bool :=
  if 2 ≤ checkpointLoaderCount g then .ok true else refinerScan g.nodes

/-- The `preprocessor` inference of `_detect_controlnet`: inspect the
class name of the node feeding `image` for the substrings `Canny`,
`Depth`, `OpenPose`/`DW`, `Lineart`; a non-string class name raises
`TypeError` at the first `in` test. -/
def preprocessorOf (g : WorkflowGraph) (node : Node) : Except PyErr Json :=
  match dictLookup node.inputs "image" with
  | some ii =>
    if ii.is_link then
      match nodesGet g ii.source_node with
      | some prep => do
        if ← pyInStr "Canny" prep.class_type then pure (.str "canny")
        else if ← pyInStr "Depth" prep.class_type then pure (.str "depth")
        else if ← pyInStr "OpenPose" prep.class_type then pure (.str "openpose")
        else if ← pyInStr "DW" prep.class_type then pure (.str "openpose")
        else if ← pyInStr "Lineart" prep.class_type then pure (.str "lineart")
        else pure .null
      | none => pure .null
    else pure .null
  | none => pure .null

/-- The `model` extraction of `_detect_controlnet`: one hop along the
`control_net` link to a `ControlNetLoader`, then its literal
`control_net_name`. -/
def controlnetModelOf (g : WorkflowGraph) (node : Node) : Json :=
  match dictLookup node.inputs "control_net" with
  | some ci =>
    if ci.is_link then
      match nodesGet g ci.source_node with
      | some ln =>
        if ln.class_type = .str "ControlNetLoader" then
          getInputValue ln "control_net_name" .null
        else .null
      | none => .null
    else .null
  | none => .null

/-- `PatternRecognizer._detect_controlnet`. -/
def detectControlNet (g : WorkflowGraph) : Except PyErr (List PatternMatch) :=
  g.nodes.foldlM (fun acc p =>
    if classIs p.2.class_type
        ["ControlNetApply", "ControlNetApplyAdvanced", "ControlNetApplySD3"] then do
      let prep ← preprocessorOf g p.2
      pure (acc ++ [PatternMatch.mk "controlnet" [p.1]
          [("model", controlnetModelOf g p.2),
           ("preprocessor", prep),
           ("strength", getInputValue p.2 "strength" (.float 1)),
           ("start_percent", getInputValue p.2 "start_percent" (.float 0)),
           ("end_percent", getInputValue p.2 "end_percent" (.float 1))]])
    else pure acc) []

/-- `PatternRecognizer._detect_ipadapter`. -/
def detectIPAdapter (g : WorkflowGraph) : List PatternMatch :=
  g.nodes.foldl (fun acc p =>
    if classIs p.2.class_type
        ["IPAdapterApply", "IPAdapterAdvanced", "IPAdapterFaceID",
         "IPAdapterStyleComposition", "IPAdapterBatch"] then
      acc ++ [PatternMatch.mk "ipadapter" [p.1]
          [("type", p.2.class_type),
           ("weight", getInputValue p.2 "weight" (.float 1)),
           ("weight_type", getInputValue p.2 "weight_type" (.str "standard")),
           ("start_at", getInputValue p.2 "start_at" (.float 0)),
           ("end_at", getInputValue p.2 "end_at" (.float 1))]]
    else acc) []

/-- `PatternRecognizer._detect_lora`. -/
def detectLora (g : WorkflowGraph) : List PatternMatch :=
  g.nodes.foldl (fun acc p =>
    if classIs p.2.class_type ["LoraLoader", "LoraLoaderModelOnly"] then
      acc ++ [PatternMatch.mk "lora" [p.1]
          [("name", getInputValue p.2 "lora_name" .null),
           ("strength_model", getInputValue p.2 "strength_model" (.float 1)),
           ("strength_clip", getInputValue p.2 "strength_clip" (.float 1))]]
    else acc) []

/-- The `model_name` extraction of the model-based upscale scan: one
hop along the `upscale_model` link, then the loader's literal
`model_name` (no class check). -/
def upscaleModelNameOf (g : WorkflowGraph) (node : Node) : Json :=
  match dictLookup node.inputs "upscale_model" with
  | some mi =>
    if mi.is_link then
      match nodesGet g mi.source_node with
      | some loader => getInputValue loader "model_name" .null
      | none => .null
    else .null
  | none => .null

/-- `PatternRecognizer._detect_upscaling`: first the latent-upscale
scan, then the model-based scan. -/
def detectUpscaling (g : WorkflowGraph) : List PatternMatch :=
  (g.nodes.foldl (fun acc p =>
    if classIs p.2.class_type ["LatentUpscale", "LatentUpscaleBy"] then
      acc ++ [PatternMatch.mk "upscale" [p.1]
          [("method", .str "latent"),
           ("scale", getInputValue p.2 "scale_by" (.float (3/2 : ℚ))),
           ("upscale_method",
            getInputValue p.2 "upscale_method" (.str "nearest-exact"))]]
    else acc) []) ++
  (g.nodes.foldl (fun acc p =>
    if p.2.class_type = .str "ImageUpscaleWithModel" then
      acc ++ [PatternMatch.mk "upscale" [p.1]
          [("method", .str "model"), ("model", upscaleModelNameOf g p.2)]]
    else acc) [])

/-- `PatternRecognizer._detect_inpainting`. -/
def detectInpainting (g : WorkflowGraph) : List PatternMatch :=
  g.nodes.foldl (fun acc p =>
    if classIs p.2.class_type ["VAEEncodeForInpaint", "InpaintModelConditioning"] then
      acc ++ [PatternMatch.mk "inpaint" [p.1]
          [("type", .str "inpaint"),
           ("grow_mask", getInputValue p.2 "grow_mask_by" (.int 0))]]
    else acc) []

/-- The img2img classification of `_detect_base_pattern`: the sampler's
`latent_image` input links to a `VAEEncode`/`VAEEncodeForInpaint`. -/
def isImg2img (g : WorkflowGraph) (sampler_node : Node) : Bool :=
  match dictLookup sampler_node.inputs "latent_image" with
  | some li =>
    li.is_link &&
      (match nodesGet g li.source_node with
       | some ls => classIs ls.class_type ["VAEEncode", "VAEEncodeForInpaint"]
       | none => false)
  | none => false

/-- The initial config dict of `_detect_base_pattern` (checkpoint and
sampler literals with their documented defaults). -/
def baseConfig0 (checkpoint_node sampler_node : Node) : List (String × Json) :=
  [("checkpoint", getInputValue checkpoint_node "ckpt_name" .null),
   ("steps", getInputValue sampler_node "steps" (.int 20)),
   ("cfg", getInputValue sampler_node "cfg" (.float (15/2 : ℚ))),
   ("sampler", getInputValue sampler_node "sampler_name" (.str "euler")),
   ("scheduler", getInputValue sampler_node "scheduler" (.str "normal")),
   ("seed", getInputValue sampler_node "seed" (.int 0)),
   ("denoise", getInputValue sampler_node "denoise" (.float 1))]

/-- The prompt extraction of `_detect_base_pattern`: follow the named
sampler input one hop; when the source is a `CLIPTextEncode`, store its
`text` literal under `key`. -/
def promptInsert (g : WorkflowGraph) (sampler_node : Node) (inputName key : String)
    (config : List (String × Json)) : List (String × Json) :=
  match dictLookup sampler_node.inputs inputName with
  | some pi =>
    if pi.is_link then
      match nodesGet g pi.source_node with
      | some pn =>
        if pn.class_type = .str "CLIPTextEncode" then
          dictInsert config key (getInputValue pn "text" (.str ""))
        else config
      | none => config
    else config
  | none => config

/-- The dimension extraction of `_detect_base_pattern`: for txt2img,
follow `latent_image` to an `EmptyLatentImage` and store its `width`,
`height` and `batch_size` literals. -/
def dimsInsert (g : WorkflowGraph) (sampler_node : Node) (is_img2img : Bool)
    (config : List (String × Json)) : List (String × Json) :=
  if !is_img2img then
    match dictLookup sampler_node.inputs "latent_image" with
    | some li =>
      if li.is_link then
        match nodesGet g li.source_node with
        | some ls =>
          if ls.class_type = .str "EmptyLatentImage" then
            dictInsert (dictInsert (dictInsert config
              "width" (getInputValue ls "width" (.int 512)))
              "height" (getInputValue ls "height" (.int 512)))
              "batch_size" (getInputValue ls "batch_size" (.int 1))
          else config
        | none => config
      else config
    | none => config
  else config

/-- The fully assembled base-pattern config dict. -/
def baseConfigFull (g : WorkflowGraph) (checkpoint_node sampler_node : Node) :
    List (String × Json) :=
  dimsInsert g sampler_node (isImg2img g sampler_node)
    (promptInsert g sampler_node "negative" "negative_prompt"
      (promptInsert g sampler_node "positive" "positive_prompt"
        (baseConfig0 checkpoint_node sampler_node)))

/-- `PatternRecognizer._detect_base_pattern`.  The source also computes
a local `input_image_node` while classifying img2img; it is never read
afterwards and is omitted here. -/
def detectBasePattern (g : WorkflowGraph) : Except PyErr (Option PatternMatch) :=
  match firstCheckpoint g with
  | none => .ok none
  | some checkpoint_node =>
    match firstSampler g with
    | none => .ok none
    | some sampler_node => do
      let is_img2img := isImg2img g sampler_node
      let config := baseConfigFull g checkpoint_node sampler_node
      let pnodes := [checkpoint_node.id, sampler_node.id]
      let pt := if is_img2img then "img2img" else "txt2img"
      let hr ← hasRefiner g
      if hr then
        pure (some (PatternMatch.mk "sdxl_refiner" pnodes
          (dictInsert config "has_refiner" (.bool true))))
      else
        pure (some (PatternMatch.mk pt pnodes config))

/-- `PatternRecognizer.analyze`: base pattern first (when present), then
ControlNet, IPAdapter, LoRA, up-scale, inpaint matches. -/
def analyzePatterns (g : WorkflowGraph) : Except PyErr (List PatternMatch) := do
  let base ← detectBasePattern g
  let cns ← detectControlNet g
  pure ((match base with | some b => [b] | none => []) ++ cns ++
    detectIPAdapter g ++ detectLora g ++ detectUpscaling g ++ detectInpainting g)

/-! ## Code generator (`codegen.py`) -/

/-- The base-generation pattern types. -/
def BASE_TYPES : List String := ["txt2img", "img2img", "sdxl_refiner"]

/-- `next((p for p in patterns if p.pattern_type in (...)), None)`. -/
def findBase (patterns : List PatternMatch) : Option PatternMatch :=
  patterns.find? (fun p => BASE_TYPES.contains p.pattern_type)

/-- `p.config.get(k)` (default `None`). -/
def configGet (p : PatternMatch) (k : String) : Json :=
  dictGetD p.config k .null

/-- `CodeGenerator._generate_header`. -/
def generateHeader (patterns : List PatternMatch) : String :=
  let base := findBase patterns
  let lines := ["# RawDiffusion Workflow", "# Converted from ComfyUI", "#"]
  let lines := lines ++
    (match base with
     | some b =>
       ["# Type: " ++ b.pattern_type] ++
       (if pyTruthy (configGet b "checkpoint") then
          ["# Model: " ++ pyStr (configGet b "checkpoint")]
        else [])
     | none => [])
  let modifiers := patterns.filter (fun p =>
    ["controlnet", "ipadapter", "lora", "upscale"].contains p.pattern_type)
  let lines := lines ++
    (if !modifiers.isEmpty then
      ["#", "# Modifiers:"] ++ modifiers.foldl (fun acc m =>
        acc ++
        (if m.pattern_type = "controlnet" then
          ["#   - ControlNet (" ++ pyStr (dictGetD m.config "preprocessor" (.str "unknown")) ++ ")"]
         else if m.pattern_type = "ipadapter" then
          ["#   - IPAdapter"]
         else if m.pattern_type = "lora" then
          ["#   - LoRA: " ++ pyStr (configGet m "name")]
         else if m.pattern_type = "upscale" then
          ["#   - Upscale (" ++ pyStr (configGet m "method") ++ ")"]
         else [])) []
     else [])
  String.intercalate "\n" lines

/-- The raw (pre-sort) import list of `CodeGenerator._generate_imports`. -/
def rawImports (patterns : List PatternMatch) : List String :=
  let imports := ["import torch", "from pathlib import Path"]
  let base := findBase patterns
  let imports := imports ++
    (match base with
     | some b =>
       if b.pattern_type = "sdxl_refiner" then
         ["from diffusers import StableDiffusionXLPipeline, StableDiffusionXLImg2ImgPipeline"]
       else if strContainsSub (pyStr (dictGetD b.config "checkpoint" (.str ""))).toLower.toList "xl".toList then
         ["from diffusers import StableDiffusionXLPipeline"]
       else
         ["from diffusers import StableDiffusionPipeline"]
     | none => [])
  let imports := imports ++
    (if patterns.any (fun p => p.pattern_type = "controlnet") then
      ["from diffusers import ControlNetModel"] ++
      patterns.foldl (fun acc p =>
        acc ++
        (if p.pattern_type = "controlnet" then
          let prep := configGet p "preprocessor"
          if prep = .str "canny" then ["import cv2", "import numpy as np"]
          else if prep = .str "depth" then
            ["from transformers import DPTForDepthEstimation, DPTImageProcessor"]
          else if prep = .str "openpose" then
            ["from controlnet_aux import OpenposeDetector"]
          else []
         else [])) []
     else [])
  let imports := imports ++
    (if patterns.any (fun p => p.pattern_type = "ipadapter") then
      ["from diffusers import IPAdapterMixin"]
     else [])
  imports ++
    (if patterns.any (fun p =>
        ["img2img", "controlnet", "ipadapter", "upscale"].contains p.pattern_type) then
      ["from PIL import Image"]
     else [])

/-- `line.startswith('import')`, computed on the character list. -/
def startsWithImport (a : String) : Bool :=
  "import".toList.isPrefixOf a.toList

/-- The sort key of `_generate_imports`: `(not line.startswith('import'), line)`
compared lexicographically — plain `import X` lines (key `False`) first,
then the rest, each group in ascending string order. -/
def importKeyLe (a b : String) : Prop :=
  (!startsWithImport a) < (!startsWithImport b) ∨
    ((!startsWithImport a) = (!startsWithImport b) ∧ a ≤ b)

instance : DecidableRel importKeyLe := fun a b => by
  unfold importKeyLe; infer_instance

/-- `sorted(set(imports), key=...)`: deduplicate, then sort by the key.
The key is injective, so the result is independent of `set` iteration
order. -/
def sortedImports (l : List String) : List String :=
  List.insertionSort importKeyLe l.dedup

instance : IsTotal String importKeyLe :=
  ⟨fun a b => by
    unfold importKeyLe
    rcases lt_trichotomy (!startsWithImport a) (!startsWithImport b) with h | h | h
    · exact Or.inl (Or.inl h)
    · rcases le_total a b with h2 | h2
      · exact Or.inl (Or.inr ⟨h, h2⟩)
      · exact Or.inr (Or.inr ⟨h.symm, h2⟩)
    · exact Or.inr (Or.inl h)⟩

instance : IsTrans String importKeyLe :=
  ⟨fun a b c hab hbc => by
    unfold importKeyLe at hab hbc ⊢
    rcases hab with h1 | ⟨e1, l1⟩
    · rcases hbc with h2 | ⟨e2, l2⟩
      · exact Or.inl (h1.trans h2)
      · exact Or.inl (lt_of_lt_of_eq h1 e2)
    · rcases hbc with h2 | ⟨e2, l2⟩
      · exact Or.inl (lt_of_eq_of_lt e1 h2)
      · exact Or.inr ⟨e1.trans e2, l1.trans l2⟩⟩

/-- `CodeGenerator._generate_imports`. -/
def generateImports (patterns : List PatternMatch) : String :=
  String.intercalate "\n" (sortedImports (rawImports patterns))

/-- `CodeGenerator._generate_config`. -/
def generateConfig (patterns : List PatternMatch) : String :=
  let lines := ["# Configuration"]
  let base := findBase patterns
  let lines := lines ++
    (match base with
     | some b =>
       ["MODEL_PATH = \"" ++ pyStr (dictGetD b.config "checkpoint" (.str "model.safetensors")) ++ "\"",
        "PROMPT = \"\"\"" ++ pyStr (dictGetD b.config "positive_prompt" (.str "a beautiful landscape")) ++ "\"\"\"",
        "NEGATIVE_PROMPT = \"\"\"" ++ pyStr (dictGetD b.config "negative_prompt" (.str "blurry, low quality")) ++ "\"\"\"",
        "STEPS = " ++ pyStr (dictGetD b.config "steps" (.int 20)),
        "CFG_SCALE = " ++ pyStr (dictGetD b.config "cfg" (.float (15/2 : ℚ))),
        "SEED = " ++ pyStr (dictGetD b.config "seed" (.int 0)),
        "WIDTH = " ++ pyStr (dictGetD b.config "width" (.int 512)),
        "HEIGHT = " ++ pyStr (dictGetD b.config "height" (.int 512))] ++
       (if b.pattern_type = "img2img" then
          ["DENOISE = " ++ pyStr (dictGetD b.config "denoise" (.float (3/4 : ℚ)))]
        else [])
     | none => [])
  let loras := patterns.filter (fun p => p.pattern_type = "lora")
  let lines := lines ++
    (if !loras.isEmpty then
      ["", "# LoRA Configuration", "LORAS = ["] ++
      loras.map (fun lora =>
        "    (\"" ++ pyStr (dictGetD lora.config "name" (.str "lora.safetensors")) ++
        "\", " ++ pyStr (dictGetD lora.config "strength_model" (.float 1)) ++ "),") ++
      ["]"]
     else [])
  let controlnets := patterns.filter (fun p => p.pattern_type = "controlnet")
  let lines := lines ++
    (if !controlnets.isEmpty then
      ["", "# ControlNet Configuration"] ++
      (List.range controlnets.length).foldl (fun acc i =>
        match controlnets[i]? with
        | some cn =>
          acc ++
          ["CONTROLNET_" ++ toString i ++ "_MODEL = \"" ++
             pyStr (dictGetD cn.config "model" (.str "controlnet")) ++ "\"",
           "CONTROLNET_" ++ toString i ++ "_STRENGTH = " ++
             pyStr (dictGetD cn.config "strength" (.float 1))]
        | none => acc) []
     else [])
  String.intercalate "\n" lines

/-- `CodeGenerator._generate_model_loading`.  `'xl' in checkpoint.lower()`
raises `AttributeError` when the checkpoint config value is not a string
(e.g. the `None` left by a missing or linked `ckpt_name`). -/
def generateModelLoading (patterns : List PatternMatch) (base : PatternMatch) :
    Except PyErr (List String) := do
  let checkpoint := dictGetD base.config "checkpoint" (.str "model.safetensors")
  let lowered ← pyLower checkpoint
  let is_xl := strContainsSub lowered.toList "xl".toList ||
    base.pattern_type = "sdxl_refiner"
  let controlnets := patterns.filter (fun p => p.pattern_type = "controlnet")
  let lines := ["# Load model"]
  let lines := lines ++
    (if !controlnets.isEmpty then
      ["# Load ControlNet"] ++
      (List.range controlnets.length).foldl (fun acc i =>
        match controlnets[i]? with
        | some cn =>
          acc ++ ["controlnet_" ++ toString i ++
            " = ControlNetModel.from_pretrained(\"" ++
            pyStr (dictGetD cn.config "model" (.str "lllyasviel/control_v11p_sd15_canny")) ++
            "\", torch_dtype=dtype)"]
        | none => acc) [] ++
      (if is_xl then
        ["", "pipe = StableDiffusionXLControlNetPipeline.from_single_file("]
       else
        ["", "from diffusers import StableDiffusionControlNetPipeline",
         "pipe = StableDiffusionControlNetPipeline.from_single_file("]) ++
      ["    MODEL_PATH,"] ++
      (if controlnets.length = 1 then
        ["    controlnet=controlnet_0,"]
       else
        ["    controlnet=[" ++ String.intercalate ", "
          ((List.range controlnets.length).map (fun i => "controlnet_" ++ toString i)) ++ "],"]) ++
      ["    torch_dtype=dtype,", ")"]
     else
      (if is_xl then ["pipe = StableDiffusionXLPipeline.from_single_file("]
       else ["pipe = StableDiffusionPipeline.from_single_file("]) ++
      ["    MODEL_PATH,", "    torch_dtype=dtype,", ")"])
  pure (lines ++ ["pipe.to(device)", "", "# Memory optimization",
    "pipe.enable_model_cpu_offload()"])

/-- `CodeGenerator._generate_lora_loading`. -/
def generateLoraLoading (_loras : List PatternMatch) : List String :=
  ["# Load LoRAs", "for lora_name, lora_weight in LORAS:",
   "    pipe.load_lora_weights(lora_name)",
   "    pipe.fuse_lora(lora_scale=lora_weight)"]

/-- `CodeGenerator._generate_controlnet_setup`. -/
def generateControlnetSetup (controlnets : List PatternMatch) : List String :=
  ["# Prepare ControlNet inputs",
   "control_image = Image.open(\"input_image.png\")  # Your control image"] ++
  (List.range controlnets.length).foldl (fun acc i =>
    match controlnets[i]? with
    | some cn =>
      let prep := dictGetD cn.config "preprocessor" (.str "canny")
      acc ++
      (if prep = .str "canny" then
        ["", "# Canny edge detection for ControlNet " ++ toString i,
         "control_array = np.array(control_image)",
         "control_array = cv2.Canny(control_array, 100, 200)",
         "control_array = np.stack([control_array] * 3, axis=-1)",
         "control_image_" ++ toString i ++ " = Image.fromarray(control_array)"]
       else if prep = .str "depth" then
        ["", "# Depth estimation for ControlNet " ++ toString i,
         "depth_estimator = DPTForDepthEstimation.from_pretrained(\"Intel/dpt-large\")",
         "processor = DPTImageProcessor.from_pretrained(\"Intel/dpt-large\")",
         "inputs = processor(control_image, return_tensors='pt')",
         "with torch.no_grad():",
         "    depth = depth_estimator(**inputs).predicted_depth",
         "control_image_" ++ toString i ++ " = depth  # Process as needed"]
       else if prep = .str "openpose" then
        ["", "# OpenPose detection for ControlNet " ++ toString i,
         "openpose = OpenposeDetector.from_pretrained('lllyasviel/Annotators')",
         "control_image_" ++ toString i ++ " = openpose(control_image)"]
       else
        ["control_image_" ++ toString i ++ " = control_image  # Preprocessor: " ++ pyStr prep])
    | none => acc) []

/-- `CodeGenerator._generate_ipadapter_setup`. -/
def generateIpadapterSetup (_ipadapters : List PatternMatch) : List String :=
  ["# Setup IPAdapter",
   "pipe.load_ip_adapter(\"h94/IP-Adapter\", subfolder=\"models\", weight_name=\"ip-adapter_sd15.bin\")",
   "ip_image = Image.open(\"reference_image.png\")  # Your reference image"]

/-- `CodeGenerator._generate_inference`. -/
def generateInference (base : PatternMatch) (patterns : List PatternMatch) :
    List String :=
  let controlnets := patterns.filter (fun p => p.pattern_type = "controlnet")
  let ipadapters := patterns.filter (fun p => p.pattern_type = "ipadapter")
  ["# Generate image", "generator = torch.Generator(device).manual_seed(SEED)", "",
   "image = pipe(", "    prompt=PROMPT,", "    negative_prompt=NEGATIVE_PROMPT,"] ++
  (if base.pattern_type ≠ "img2img" then
    ["    width=WIDTH,", "    height=HEIGHT,"]
   else
    ["    image=Image.open(\"input.png\"),", "    strength=DENOISE,"]) ++
  ["    num_inference_steps=STEPS,", "    guidance_scale=CFG_SCALE,",
   "    generator=generator,"] ++
  (if !controlnets.isEmpty then
    (if controlnets.length = 1 then
      ["    image=control_image_0,",
       "    controlnet_conditioning_scale=CONTROLNET_0_STRENGTH,"]
     else
      ["    image=[" ++ String.intercalate ", "
        ((List.range controlnets.length).map (fun i => "control_image_" ++ toString i)) ++ "],",
       "    controlnet_conditioning_scale=[" ++ String.intercalate ", "
        ((List.range controlnets.length).map (fun i => "CONTROLNET_" ++ toString i ++ "_STRENGTH")) ++ "],"])
   else []) ++
  (if !ipadapters.isEmpty then ["    ip_adapter_image=ip_image,"] else []) ++
  [").images[0]"]

/-- `CodeGenerator._generate_upscaling`. -/
def generateUpscaling (upscales : List PatternMatch) : List String :=
  ["# Upscale"] ++
  upscales.foldl (fun acc up =>
    acc ++
    (if configGet up "method" = .str "model" then
      let model := pyStr (dictGetD up.config "model" (.str "RealESRGAN_x4plus"))
      ["# Using upscale model: " ++ model,
       "from basicsr.archs.rrdbnet_arch import RRDBNet",
       "from realesrgan import RealESRGANer", "",
       "upsampler = RealESRGANer(",
       "    model_path=\"" ++ model ++ "\",",
       "    scale=4,", ")",
       "image, _ = upsampler.enhance(np.array(image))",
       "image = Image.fromarray(image)"]
     else
      let scale := pyStr (dictGetD up.config "scale" (.int 2))
      ["# Simple upscale by " ++ scale ++ "x",
       "new_size = (int(image.width * " ++ scale ++ "), int(image.height * " ++ scale ++ "))",
       "image = image.resize(new_size, Image.LANCZOS)"])) []

/-- The placeholder main body for workflows without a base pattern. -/
def NO_BASE_COMMENT : String := "# Could not detect base generation pattern"

/-- `CodeGenerator._generate_main`. -/
def generateMain (patterns : List PatternMatch) : Except PyErr String :=
  match findBase patterns with
  | none => .ok NO_BASE_COMMENT
  | some base => do
    let lines := ["# Setup",
      "device = \"cuda\" if torch.cuda.is_available() else \"cpu\"",
      "dtype = torch.float16 if device == \"cuda\" else torch.float32", ""]
    let ml ← generateModelLoading patterns base
    let lines := lines ++ ml ++ [""]
    let loras := patterns.filter (fun p => p.pattern_type = "lora")
    let lines := lines ++
      (if !loras.isEmpty then generateLoraLoading loras ++ [""] else [])
    let controlnets := patterns.filter (fun p => p.pattern_type = "controlnet")
    let lines := lines ++
      (if !controlnets.isEmpty then generateControlnetSetup controlnets ++ [""] else [])
    let ipadapters := patterns.filter (fun p => p.pattern_type = "ipadapter")
    let lines := lines ++
      (if !ipadapters.isEmpty then generateIpadapterSetup ipadapters ++ [""] else [])
    let lines := lines ++ generateInference base patterns ++ [""]
    let upscales := patterns.filter (fun p => p.pattern_type = "upscale")
    let lines := lines ++
      (if !upscales.isEmpty then generateUpscaling upscales ++ [""] else [])
    let lines := lines ++ ["# Save output", "image.save(\"output.png\")",
      "print(\"Saved to output.png\")"]
    pure (String.intercalate "\n" lines)

/-- `CodeGenerator.generate`: header, imports, configuration and main
sections joined by blank lines.  (The graph argument is accepted but,
as in the source, never used.) -/
def generate (_graph : WorkflowGraph) (patterns : List PatternMatch) :
    Except PyErr String := do
  let main ← generateMain patterns
  pure (String.intercalate "\n\n"
    [generateHeader patterns, generateImports patterns,
     generateConfig patterns, main])

/-! ## Façade (`translator.py`) -/

/-- `ComfyTranslator.translate_dict`: parse, recognize, generate.  No
exception handling of any kind — errors from any stage propagate. -/
def translateDict (workflow : Json) : Except PyErr String := do
  let graph ← parse workflow
  let patterns ← analyzePatterns graph
  generate graph patterns

/-! ## Derived notions used in the verified statements -/

/-- The identifiers (dict keys) of a node map. -/
def keysOf (m : List (String × Node)) : List String := m.map (·.1)

/-- Number of entries of a connection list that target `t`. -/
def targetCount (C : List (String × String × Option Json)) (t : String) : Nat :=
  (C.filter (fun c => c.1 = t)).length

/-- Number of connection entries of source `s` that target `t`. -/
def connCount (m : List (String × Node)) (s t : String) : Nat :=
  targetCount (connsOf m s) t

/-- Connections into `t` whose sources have already been emitted. -/
def emittedConnsTo (m : List (String × Node)) (ord : List String) (t : String) : Nat :=
  (ord.map (fun s => connCount m s t)).sum

/-- All connections into `t`. -/
def totalConnsTo (m : List (String × Node)) (t : String) : Nat :=
  ((keysOf m).map (fun s => connCount m s t)).sum

/-- The loop's in-degree of `t` once the nodes of `ord` have been
emitted: the initial in-degree minus one per connection from an emitted
source. -/
def residualDeg (m : List (String × Node)) (ord : List String) (t : String) : Int :=
  deg0 m t - (emittedConnsTo m ord t : Int)

/-- A node is ready once `ord` is emitted: present, unemitted, residual
in-degree zero. -/
def isReady (m : List (String × Node)) (ord : List String) (x : String) : Prop :=
  x ∈ keysOf m ∧ x ∉ ord ∧ residualDeg m ord x = 0

instance (m : List (String × Node)) (ord : List String) (x : String) :
    Decidable (isReady m ord x) := by
  unfold isReady; infer_instance

/-- The order is, position by position, "emit the smallest ready
identifier": Kahn's algorithm with ascending-identifier tie-break. -/
def stepwiseLeast (m : List (String × Node)) (ord : List String) : Prop :=
  ∀ i (hi : i < ord.length), isReady m (ord.take i) (ord.get ⟨i, hi⟩) ∧
    ∀ y, isReady m (ord.take i) y → ord.get ⟨i, hi⟩ ≤ y

/-- The order is maximal: nothing is left ready. -/
def kahnComplete (m : List (String × Node)) (ord : List String) : Prop :=
  ∀ x, ¬ isReady m ord x

/-- `u` strictly precedes `v` in the list. -/
def precedes (l : List String) (u v : String) : Prop :=
  u ∈ l ∧ v ∈ l ∧ l.indexOf u < l.indexOf v

/-- The resolved-link edge relation: some connection of `a` targets `b`
(equivalently, `b` has a resolved link input fed by `a`). -/
def linkEdge (m : List (String × Node)) (a b : String) : Prop :=
  b ∈ (connsOf m a).map (·.1)

instance (m : List (String × Node)) (a b : String) : Decidable (linkEdge m a b) := by
  unfold linkEdge; infer_instance

/-- `u` lies on a directed cycle of resolved links. -/
def onCycle (m : List (String × Node)) (u : String) : Prop :=
  Relation.TransGen (linkEdge m) u u

/-- Resolved link inputs of `ip` from precisely the source `u`
(`is_link` set, source identifier equal to `u`, non-empty). -/
def pairLinkB (u : String) (ip : String × NodeInput) : Bool :=
  ip.2.is_link &&
    (match ip.2.source_node with
     | some s => s = u && s ≠ ""
     | none => false)

/-- How many of `t`'s link inputs name `u` as their (non-empty) source. -/
def pairResolved (m : List (String × Node)) (u t : String) : Nat :=
  match dictLookup m t with
  | some n => (n.inputs.filter (pairLinkB u)).length
  | none => 0

/-- Whether an input is a link with a truthy (non-empty) source. -/
def srcSel (ip : String × NodeInput) : Bool :=
  ip.2.is_link && optStrTruthy ip.2.source_node

/-- The source identifier of an input (empty when absent). -/
def srcOf (ip : String × NodeInput) : String :=
  match ip.2.source_node with
  | some s => s
  | none => ""

/-- A link input that resolves: non-empty source present in the map. -/
def resolvedLinkB (ks : List String) (ip : String × NodeInput) : Bool :=
  ip.2.is_link &&
    (match ip.2.source_node with
     | some s => s ≠ "" && decide (s ∈ ks)
     | none => false)

/-- Number of resolved link inputs of `t`. -/
def resolvedLinkCount (m : List (String × Node)) (t : String) : Nat :=
  match dictLookup m t with
  | some n => (n.inputs.filter (resolvedLinkB (keysOf m))).length
  | none => 0

/-- Well-formedness of a node map as produced by the parser's first
three passes: distinct keys, connection entries that tally exactly with
the resolved link inputs, and untouched `execution_order` fields. -/
structure KahnWF (m : List (String × Node)) : Prop where
  nodup : (keysOf m).Nodup
  pair_eq : ∀ u ∈ keysOf m, ∀ t, connCount m u t = pairResolved m u t
  exec_init : ∀ x n, dictLookup m x = some n → n.execution_order = -1

/-- A node with its `execution_order` field cleared — two nodes equal
after `stripExec` differ at most in that field. -/
def stripExec (n : Node) : Node := { n with execution_order := 0 }

/-- A node with its connection list cleared — two nodes equal after
`stripConns` differ at most in `output_connections`. -/
def stripConns (n : Node) : Node := { n with output_connections := [] }

/-- The inputs of the named node (`[]` when absent). -/
def inputsOf (m : List (String × Node)) (x : String) : List (String × NodeInput) :=
  match dictLookup m x with
  | some n => n.inputs
  | none => []

/-- Total outstanding in-degree over the whole graph. -/
def sumDeg (M : List (String × Node)) (ord : List String) : Nat :=
  ((keysOf M).map (fun x => (residualDeg M ord x).toNat)).sum

/-- The invariant tying a `kahnLoop` state to the immutable parsed map
`M`: the working map differs from `M` only in stamped
`execution_order` fields, the in-degree table tracks `residualDeg`, the
queue is exactly the ready set, and the order so far is a stepwise-least
emission history. -/
structure KahnInv (M m : List (String × Node)) (deg : String → Int)
    (queue order : List String) (idx : Int) : Prop where
  keys_eq : keysOf m = keysOf M
  strip_eq : ∀ x, (dictLookup m x).map stripExec = (dictLookup M x).map stripExec
  exec_eq : ∀ x n, dictLookup m x = some n →
    n.execution_order = (if x ∈ order then (order.indexOf x : Int) else -1)
  deg_eq : ∀ x, deg x = residualDeg M order x
  queue_nodup : queue.Nodup
  queue_sound : ∀ x ∈ queue, isReady M order x
  queue_complete : ∀ x, isReady M order x → x ∈ queue
  order_nodup : order.Nodup
  order_sub : ∀ x ∈ order, x ∈ keysOf M
  idx_eq : idx = (order.length : Int)
  hist : ∀ i (hi : i < order.length),
    isReady M (order.take i) (order.get ⟨i, hi⟩) ∧
      ∀ y, isReady M (order.take i) y → order.get ⟨i, hi⟩ ≤ y

/-- The link-classification rule exactly as the specification states it:
a two-element array whose first element is a (JSON) string or integer
and whose second is a non-negative (JSON) integer. -/
def claimLinkShape : Json → Bool
  | .arr [v0, v1] =>
    (match v0 with | .str _ => true | .int _ => true | _ => false) &&
    (match v1 with | .int n => decide (0 ≤ n) | _ => false)
  | _ => false

/-- The keyword head `image=` of an inference-call argument line. -/
def IMAGE_KW : List Char := "    image=".toList

/-- How many lines of the generated inference call introduce the
keyword argument `image=`. -/
def imageKwLineCount (lines : List String) : Nat :=
  (lines.filter (fun l => IMAGE_KW.isPrefixOf l.toList)).length

/-- The refiner-cascade condition as the specification states it: two or
more checkpoint loaders (the classes `_has_refiner` counts), or some
`KSamplerAdvanced` whose `start_at_step` literal compares greater than
zero. -/
def refinerCondition (g : WorkflowGraph) : Prop :=
  2 ≤ checkpointLoaderCount g ∨
    ∃ p ∈ g.nodes, p.2.class_type = .str "KSamplerAdvanced" ∧
      pyGtZero (getInputValue p.2 "start_at_step" (.int 0)) = .ok true

/-- The extraction contract of a single sampler-config entry: a literal
input is copied verbatim into the config under `ckey`; an absent input
yields the documented default. -/
def configExtract (pm : PatternMatch) (s : Node) (iname ckey : String) (d : Json) :
    Prop :=
  (∀ inp, dictLookup s.inputs iname = some inp → inp.is_link = false →
    dictLookup pm.config ckey = some inp.value) ∧
  (dictLookup s.inputs iname = none → dictLookup pm.config ckey = some d)

/-- A two-node graph — checkpoint loader plus `KSampler` with literal
sampler settings — used to witness the recognizer claims. -/
def baseWitnessGraph : WorkflowGraph :=
  { nodes :=
      [("1", Node.mk "1" (.str "CheckpointLoaderSimple")
        [("ckpt_name", NodeInput.mk "ckpt_name" (.str "v1.safetensors") false none none)]
        [] (-1)),
       ("2", Node.mk "2" (.str "KSampler")
        [("steps", NodeInput.mk "steps" (.int 30) false none none)]
        [] (-1))],
    root_nodes := ["1", "2"], terminal_nodes := ["1", "2"],
    execution_order := ["1", "2"] }

/-- The base pattern the recognizer emits for `baseWitnessGraph`. -/
def baseWitnessPattern : PatternMatch :=
  match detectBasePattern baseWitnessGraph with
  | .ok (some pm) => pm
  | _ => PatternMatch.mk "" [] []

/-- The number of checkpoint loaders in the graph *per the
specification's own class set* (the three classes base-pattern
detection accepts, `unCLIPCheckpointLoader` included).  This definition
follows the specification's words; compare `checkpointLoaderCount`,
which counts the strictly smaller set `_has_refiner` uses. -/
def specCheckpointLoaderCount (g : WorkflowGraph) : Nat :=
  (g.nodes.filter (fun p => classIs p.2.class_type CHECKPOINT_CLASSES)).length

/-- The refiner-cascade condition exactly as the claim states it, with
*checkpoint loader* read per the specification's definition: two or
more nodes of the three checkpoint-loader classes, or some
`KSamplerAdvanced` whose `start_at_step` literal compares greater than
zero. -/
def specRefinerCondition (g : WorkflowGraph) : Prop :=
  2 ≤ specCheckpointLoaderCount g ∨
    ∃ p ∈ g.nodes, p.2.class_type = .str "KSamplerAdvanced" ∧
      pyGtZero (getInputValue p.2 "start_at_step" (.int 0)) = .ok true

/-- A three-node graph — an `unCLIPCheckpointLoader`, a
`CheckpointLoaderSimple` and a `KSampler` — holding two checkpoint
loaders per the specification's class set but only one per the set
`_has_refiner` counts. -/
def refinerCexGraph : WorkflowGraph :=
  { nodes :=
      [("1", Node.mk "1" (.str "unCLIPCheckpointLoader")
        [("ckpt_name", NodeInput.mk "ckpt_name" (.str "unclip.safetensors") false none none)]
        [] (-1)),
       ("2", Node.mk "2" (.str "CheckpointLoaderSimple")
        [("ckpt_name", NodeInput.mk "ckpt_name" (.str "v1.safetensors") false none none)]
        [] (-1)),
       ("3", Node.mk "3" (.str "KSampler")
        [("steps", NodeInput.mk "steps" (.int 30) false none none)]
        [] (-1))],
    root_nodes := ["1", "2", "3"], terminal_nodes := ["1", "2", "3"],
    execution_order := ["1", "2", "3"] }

/-- The base pattern the recognizer emits for `refinerCexGraph`. -/
def refinerCexPattern : PatternMatch :=
  match detectBasePattern refinerCexGraph with
  | .ok (some pm) => pm
  | _ => PatternMatch.mk "" [] []

/-- A four-node document with a two-node cycle (`a` ⇄ `b`) and an
acyclic tail `a → c → d` hanging off it. -/
def cyclicTailDoc : Json := .obj
  [("a", .obj [("class_type", .str "X"), ("inputs", .obj [("u", .arr [.str "b", .int 0])])]),
   ("b", .obj [("class_type", .str "X"), ("inputs", .obj [("u", .arr [.str "a", .int 0])])]),
   ("c", .obj [("class_type", .str "X"), ("inputs", .obj [("u", .arr [.str "a", .int 0])])]),
   ("d", .obj [("class_type", .str "X"), ("inputs", .obj [("u", .arr [.str "c", .int 0])])])]

/-- The graph the parser produces for `cyclicTailDoc`. -/
def cyclicTailGraph : WorkflowGraph :=
  match parse cyclicTailDoc with
  | .ok g => g
  | .error _ => ⟨[], [], [], []⟩

/-! ## Dictionary lemmas -/

theorem dictLookup_insert_self {α : Type} (l : List (String × α)) (k : String) (v : α) :
    dictLookup (dictInsert l k v) k = some v := by
  induction l with
  | nil => simp [dictInsert, dictLookup]
  | cons h t ih =>
    by_cases hk : h.1 = k
    · simp [dictInsert, hk, dictLookup]
    · simp [dictInsert, hk, dictLookup, ih]

theorem dictLookup_insert_ne {α : Type} (l : List (String × α)) (k' k : String) (v : α)
    (h : k' ≠ k) : dictLookup (dictInsert l k' v) k = dictLookup l k := by
  induction l with
  | nil => simp [dictInsert, dictLookup, h]
  | cons hd t ih =>
    by_cases hk : hd.1 = k'
    · simp [dictInsert, hk, dictLookup, h]
    · by_cases hk2 : hd.1 = k
      · simp [dictInsert, hk, dictLookup, hk2, Ne.symm h]
      · simp [dictInsert, hk, dictLookup, hk2, ih]

theorem dictLookup_isSome_iff_mem {α : Type} (l : List (String × α)) (k : String) :
    (dictLookup l k).isSome = true ↔ k ∈ l.map (·.1) := by
  induction l with
  | nil => simp [dictLookup]
  | cons h t ih =>
    by_cases hk : h.1 = k
    · simp [dictLookup, hk]
    · simp [dictLookup, hk, ih, Ne.symm hk]

theorem dictLookup_eq_none_iff {α : Type} (l : List (String × α)) (k : String) :
    dictLookup l k = none ↔ k ∉ l.map (·.1) := by
  rw [← dictLookup_isSome_iff_mem]
  cases h : dictLookup l k <;> simp [h]

/-! ## C2 — link classification -/

/-- C2 (counterexample): `["3", -1]` — a two-element array with a
*negative* second element — is classified as a link by the code, while
the claim's rule (non-negative index required) classifies it as a
literal. -/
theorem claim_C2_counterexample :
    (parseInput "model" (.arr [.str "3", .int (-1)])).is_link = true ∧
      claimLinkShape (.arr [.str "3", .int (-1)]) = false := by
  constructor <;> rfl

/-- C2 (amended): a value is classified as a link iff it is a
two-element array whose first element is a string or integer and whose
second is an integer, with Python's `isinstance` semantics (booleans
count as integers) and no sign restriction on the index; every other
value is retained verbatim as a literal, and a link's source identifier
is normalized with `str()`. -/
theorem claim_C2 (name : String) (v : Json) :
    ((parseInput name v).is_link = true ↔
      ∃ v0 v1, v = .arr [v0, v1] ∧ pyIsInstStrOrInt v0 = true ∧ pyIsInstInt v1 = true) ∧
    ((parseInput name v).is_link = false → (parseInput name v).value = v) ∧
    (∀ v0 v1, v = .arr [v0, v1] → pyIsInstStrOrInt v0 = true → pyIsInstInt v1 = true →
      (parseInput name v).source_node = some (pyStr v0) ∧
      (parseInput name v).source_output = some v1) := by
  rcases v with _ | b | n | q | s | xs | fs
  case arr =>
    rcases xs with _ | ⟨v0, _ | ⟨v1, _ | ⟨v2, rest⟩⟩⟩
    · simp [parseInput]
    · simp [parseInput]
    · by_cases hc : pyIsInstStrOrInt v0 && pyIsInstInt v1
      · rw [Bool.and_eq_true] at hc
        refine ⟨?_, ?_, ?_⟩
        · constructor
          · intro _; exact ⟨v0, v1, rfl, hc.1, hc.2⟩
          · intro _; simp [parseInput, hc.1, hc.2]
        · intro h
          simp only [parseInput, hc.1, hc.2, Bool.and_self, if_pos] at h
          cases h
        · rintro a b hab _ _
          obtain ⟨rfl, rfl⟩ : v0 = a ∧ v1 = b := by
            simpa using hab
          simp [parseInput, hc.1, hc.2]
      · rw [Bool.and_eq_true] at hc
        push_neg at hc
        refine ⟨?_, ?_, ?_⟩
        · constructor
          · intro h
            by_cases h0 : pyIsInstStrOrInt v0 = true
            · have h1 := hc h0
              simp [parseInput, h0, h1] at h
            · simp [parseInput, Bool.eq_false_iff.mpr h0] at h
          · rintro ⟨a, b, hab, ha, hb⟩
            obtain ⟨rfl, rfl⟩ : v0 = a ∧ v1 = b := by simpa using hab
            exact absurd hb (hc ha)
        · intro _
          by_cases h0 : pyIsInstStrOrInt v0 = true
          · simp [parseInput, h0, hc h0]
          · simp [parseInput, Bool.eq_false_iff.mpr h0]
        · rintro a b hab ha hb
          obtain ⟨rfl, rfl⟩ : v0 = a ∧ v1 = b := by simpa using hab
          exact absurd hb (hc ha)
    · simp [parseInput]
  all_goals simp [parseInput]

/-- C2 (witness): `[4, true]` is a link (`isinstance(True, int)` holds),
its source is normalized to the string `"4"`, and the raw output index
is retained. -/
theorem claim_C2_witness :
    (parseInput "m" (.arr [.int 4, .bool true])).source_node = some "4" ∧
      (parseInput "m" (.arr [.int 4, .bool true])).source_output = some (.bool true) ∧
      (parseInput "m" (.arr [.int 4, .bool true])).is_link = true := by
  have h := claim_C2 "m" (.arr [.int 4, .bool true])
  have h3 := h.2.2 (.int 4) (.bool true) rfl (by decide) (by decide)
  exact ⟨h3.1, h3.2, (h.1).mpr ⟨.int 4, .bool true, rfl, by decide, by decide⟩⟩

/-! ## C1 — error handling of `translate_dict` -/

/-- C1 (counterexample): `translate_dict` applied to a document that is
not a mapping (here the empty JSON array) raises `AttributeError`
(`list` has no `.items()`) instead of returning an `# Error:` comment —
the entry point has no exception handling at all. -/
theorem claim_C1_counterexample :
    translateDict (.arr []) = .error (.attributeError "items") := rfl

/-- C1 (amended): for every input document that is not a mapping,
`translate_dict` propagates an `AttributeError` to its caller; no
`# Error:` comment is produced and no local recovery happens. -/
theorem claim_C1 (j : Json) (h : ∀ fields, j ≠ .obj fields) :
    translateDict j = .error (.attributeError "items") := by
  rcases j with _ | b | n | q | s | xs | fs
  case obj => exact absurd rfl (h fs)
  all_goals rfl

/-- C1 (witness): the integer document `5` is not a mapping and
`translate_dict` raises on it. -/
theorem claim_C1_witness :
    translateDict (.int 5) = .error (.attributeError "items") :=
  claim_C1 (.int 5) (by intro f hf; cases hf)

/-! ## C10 — linked inputs are never traced by scalar extraction -/

/-- C10: `_get_input_value` — through which every scalar configuration
parameter (checkpoint `ckpt_name`, sampler `steps`/`cfg`/`sampler_name`/
`scheduler`/`seed`/`denoise`, and all modifier parameters) is extracted —
returns the supplied default whenever the input is present as a link:
linked values are never dereferenced here (the function does not even
receive the graph). -/
theorem claim_C10 (node : Node) (iname : String) (dflt : Json) (inp : NodeInput)
    (hl : dictLookup node.inputs iname = some inp) (hlink : inp.is_link = true) :
    getInputValue node iname dflt = dflt := by
  simp [getInputValue, hl, hlink]

/-- C10 (witness): a sampler whose `steps` input arrives as a link gets
the documented default 20. -/
theorem claim_C10_witness :
    getInputValue
      (Node.mk "3" (.str "KSampler")
        [("steps", NodeInput.mk "steps" .null true (some "7") (some (.int 0)))] [] (-1))
      "steps" (.int 20) = .int 20 :=
  claim_C10 _ "steps" (.int 20)
    (NodeInput.mk "steps" .null true (some "7") (some (.int 0))) rfl rfl

/-! ## C9 — duplicate `image=` keyword for img2img + ControlNet -/

theorem imageKwLineCount_append (a b : List String) :
    imageKwLineCount (a ++ b) = imageKwLineCount a + imageKwLineCount b := by
  simp [imageKwLineCount, List.filter_append]

theorem isPrefixOf_append_left (p : List Char) (A r1 r2 : String)
    (h : p.isPrefixOf A.toList = true) :
    p.isPrefixOf ((A ++ r1 ++ r2).toList) = true := by
  rw [List.isPrefixOf_iff_prefix] at h ⊢
  show p <+: ((A ++ r1) ++ r2).data
  rw [String.data_append (A ++ r1) r2, String.data_append A r1, List.append_assoc]
  exact h.trans (List.prefix_append _ _)

theorem not_isPrefixOf_append (p : List Char) (A r1 r2 : String)
    (hlen : p.length ≤ A.toList.length)
    (h : A.toList.take p.length ≠ p) :
    p.isPrefixOf ((A ++ r1 ++ r2).toList) = false := by
  rw [Bool.eq_false_iff]
  intro hp
  rw [List.isPrefixOf_iff_prefix, List.prefix_iff_eq_take] at hp
  apply h
  have hd : ((A ++ r1) ++ r2).toList = A.toList ++ (r1.toList ++ r2.toList) := by
    rw [show ((A ++ r1) ++ r2).toList = ((A ++ r1) ++ r2).data from rfl,
      String.data_append (A ++ r1) r2, String.data_append A r1, List.append_assoc]
    rfl
  rw [hd, List.take_append_eq_append_take, Nat.sub_eq_zero_of_le hlen,
    List.take_zero, List.append_nil] at hp
  exact hp.symm

/-- C9: whenever the base pattern is `img2img` and at least one
ControlNet match is present, the generated inference call contains two
lines introducing the keyword argument `image=` — one for the input
image, one for the ControlNet conditioning image — a duplicate keyword
argument, which is not a syntactically valid Python call. -/
theorem claim_C9 (base : PatternMatch) (patterns : List PatternMatch)
    (hb : base.pattern_type = "img2img")
    (hc : patterns.filter (fun p => p.pattern_type = "controlnet") ≠ []) :
    imageKwLineCount (generateInference base patterns) = 2 := by
  have hone : imageKwLineCount
      ["    image=[" ++ String.intercalate ", "
        ((List.range (patterns.filter (fun p => p.pattern_type = "controlnet")).length).map
          (fun i => "control_image_" ++ toString i)) ++ "],",
       "    controlnet_conditioning_scale=[" ++ String.intercalate ", "
        ((List.range (patterns.filter (fun p => p.pattern_type = "controlnet")).length).map
          (fun i => "CONTROLNET_" ++ toString i ++ "_STRENGTH")) ++ "],"] = 1 := by
    have h1 := isPrefixOf_append_left IMAGE_KW "    image=["
      (String.intercalate ", "
        ((List.range (patterns.filter (fun p => p.pattern_type = "controlnet")).length).map
          (fun i => "control_image_" ++ toString i))) "]," (by decide)
    have h2 := not_isPrefixOf_append IMAGE_KW "    controlnet_conditioning_scale=["
      (String.intercalate ", "
        ((List.range (patterns.filter (fun p => p.pattern_type = "controlnet")).length).map
          (fun i => "CONTROLNET_" ++ toString i ++ "_STRENGTH"))) "],"
      (by decide) (by decide)
    simp only [imageKwLineCount, List.filter_cons, h1, h2, List.filter_nil,
      Bool.false_eq_true, if_true, if_false, ite_true, ite_false,
      List.length_cons, List.length_nil]
  have hemp : (patterns.filter (fun p => p.pattern_type = "controlnet")).isEmpty = false := by
    cases he : (patterns.filter (fun p => p.pattern_type = "controlnet")) with
    | nil => exact absurd he hc
    | cons a t => rfl
  rw [generateInference, hb]
  by_cases hlen : (patterns.filter (fun p => p.pattern_type = "controlnet")).length = 1 <;>
  by_cases hip : (patterns.filter (fun p => p.pattern_type = "ipadapter")).isEmpty <;>
  simp only [hemp, hlen, hip, Bool.not_false, Bool.not_true, if_true, if_false,
    ite_true, ite_false, ne_eq, String.reduceEq, not_false_eq_true, reduceIte] <;>
  simp only [imageKwLineCount_append, hone] <;> decide

/-- C9 (witness): an img2img base with one ControlNet match yields an
inference call with exactly two `image=` keyword lines. -/
theorem claim_C9_witness :
    imageKwLineCount (generateInference (PatternMatch.mk "img2img" [] [])
      [PatternMatch.mk "img2img" [] [], PatternMatch.mk "controlnet" ["7"] []]) = 2 :=
  claim_C9 (PatternMatch.mk "img2img" [] [])
    [PatternMatch.mk "img2img" [] [], PatternMatch.mk "controlnet" ["7"] []]
    rfl (by decide)

/-! ## C7 — import sorting -/

/-- The ordering discipline the specification claims for the imports
section: no plain `import X` line may precede a from-import line. -/
def claimImportOrder (l : List String) : Prop :=
  List.Pairwise (fun a b =>
    startsWithImport a = true → startsWithImport b = true) l

instance (l : List String) : Decidable (claimImportOrder l) := by
  unfold claimImportOrder; infer_instance

/-- C7 (counterexample): with no patterns at all the emitted section is
`import torch` *before* `from pathlib import Path` — the plain-import
line comes first, contradicting the claimed "from-imports first"
rule. -/
theorem claim_C7_counterexample :
    sortedImports (rawImports []) = ["import torch", "from pathlib import Path"] ∧
      ¬ claimImportOrder (sortedImports (rawImports [])) := by
  constructor
  · rfl
  · decide

/-- C7 (amended): for every pattern list, the imports section is a
deduplicated list sorted by the key (not-a-plain-import, line): plain
`import X` lines first, then the from-imports, each group in ascending
lexicographic order; the sorted list holds exactly the distinct
constructed import lines. -/
theorem claim_C7 (patterns : List PatternMatch) :
    List.Pairwise importKeyLe (sortedImports (rawImports patterns)) ∧
      (sortedImports (rawImports patterns)).Nodup ∧
      (∀ x, x ∈ sortedImports (rawImports patterns) ↔ x ∈ rawImports patterns) ∧
      generateImports patterns =
        String.intercalate "\n" (sortedImports (rawImports patterns)) := by
  unfold sortedImports
  refine ⟨List.sorted_insertionSort importKeyLe _, ?_, ?_, rfl⟩
  · exact ((List.perm_insertionSort importKeyLe _).nodup_iff).mpr (List.nodup_dedup _)
  · intro x
    rw [(List.perm_insertionSort importKeyLe _).mem_iff]
    exact List.mem_dedup

/-- C7 (witness): with the empty pattern list, the amended ordering and
membership facts hold of the concrete two-line section. -/
theorem claim_C7_witness :
    List.Pairwise importKeyLe (sortedImports (rawImports [])) ∧
      (sortedImports (rawImports [])).Nodup ∧
      (∀ x, x ∈ sortedImports (rawImports []) ↔ x ∈ rawImports []) ∧
      generateImports [] =
        String.intercalate "\n" (sortedImports (rawImports [])) :=
  claim_C7 []

/-! ## C8 — degenerate input (no base pattern) -/

theorem mem_foldl_filtered {α : Type} (T : String)
    (mk : α → PatternMatch) (cond : α → Prop) [DecidablePred cond]
    (hmk : ∀ a, (mk a).pattern_type = T) :
    ∀ (L : List α) (init : List PatternMatch), (∀ q ∈ init, q.pattern_type = T) →
      ∀ q ∈ L.foldl (fun acc p => if cond p then acc ++ [mk p] else acc) init,
        q.pattern_type = T := by
  intro L
  induction L with
  | nil => intro init hi q hq; exact hi q hq
  | cons a t ih =>
    intro init hi q hq
    simp only [List.foldl_cons] at hq
    by_cases hca : cond a
    · refine ih (init ++ [mk a]) ?_ q (by simpa [hca] using hq)
      intro r hr
      rcases List.mem_append.mp hr with h | h
      · exact hi r h
      · simp only [List.mem_singleton] at h
        exact h ▸ hmk a
    · exact ih init hi q (by simpa [hca] using hq)

theorem detectIPAdapter_types (g : WorkflowGraph) :
    ∀ q ∈ detectIPAdapter g, q.pattern_type = "ipadapter" := by
  intro q hq
  exact mem_foldl_filtered "ipadapter" _ _ (fun _ => rfl) g.nodes [] (by simp) q hq

theorem detectLora_types (g : WorkflowGraph) :
    ∀ q ∈ detectLora g, q.pattern_type = "lora" := by
  intro q hq
  exact mem_foldl_filtered "lora" _ _ (fun _ => rfl) g.nodes [] (by simp) q hq

theorem detectUpscaling_types (g : WorkflowGraph) :
    ∀ q ∈ detectUpscaling g, q.pattern_type = "upscale" := by
  intro q hq
  rcases List.mem_append.mp hq with h | h
  · exact mem_foldl_filtered "upscale" _ _ (fun _ => rfl) g.nodes [] (by simp) q h
  · exact mem_foldl_filtered "upscale" _ _ (fun _ => rfl) g.nodes [] (by simp) q h

theorem detectInpainting_types (g : WorkflowGraph) :
    ∀ q ∈ detectInpainting g, q.pattern_type = "inpaint" := by
  intro q hq
  exact mem_foldl_filtered "inpaint" _ _ (fun _ => rfl) g.nodes [] (by simp) q hq

theorem detectControlNet_types_aux (g : WorkflowGraph) :
    ∀ (L : List (String × Node)) (init cns : List PatternMatch),
      (∀ q ∈ init, q.pattern_type = "controlnet") →
      (L.foldlM (fun acc p =>
        if classIs p.2.class_type
            ["ControlNetApply", "ControlNetApplyAdvanced", "ControlNetApplySD3"] then do
          let prep ← preprocessorOf g p.2
          pure (acc ++ [PatternMatch.mk "controlnet" [p.1]
            [("model", controlnetModelOf g p.2),
             ("preprocessor", prep),
             ("strength", getInputValue p.2 "strength" (.float 1)),
             ("start_percent", getInputValue p.2 "start_percent" (.float 0)),
             ("end_percent", getInputValue p.2 "end_percent" (.float 1))]])
        else pure acc) init : Except PyErr (List PatternMatch)) = .ok cns →
      ∀ q ∈ cns, q.pattern_type = "controlnet" := by
  intro L
  induction L with
  | nil =>
    intro init cns hi h q hq
    simp only [List.foldlM_nil] at h
    cases h
    exact hi q hq
  | cons a t ih =>
    intro init cns hi h q hq
    simp only [List.foldlM_cons] at h
    by_cases hca : classIs a.2.class_type
        ["ControlNetApply", "ControlNetApplyAdvanced", "ControlNetApplySD3"]
    · rw [if_pos hca] at h
      cases hprep : preprocessorOf g a.2 with
      | error e => rw [hprep] at h; cases h
      | ok prep =>
        rw [hprep] at h
        refine ih (init ++ [_]) cns ?_ h q hq
        intro r hr
        rcases List.mem_append.mp hr with h2 | h2
        · exact hi r h2
        · simp only [List.mem_singleton] at h2
          subst h2; rfl
    · rw [if_neg hca] at h
      exact ih init cns hi h q hq

theorem detectControlNet_types (g : WorkflowGraph) (cns : List PatternMatch)
    (h : detectControlNet g = .ok cns) :
    ∀ q ∈ cns, q.pattern_type = "controlnet" :=
  detectControlNet_types_aux g g.nodes [] cns (by simp) h

theorem detectBasePattern_none (g : WorkflowGraph)
    (h : firstCheckpoint g = none ∨ firstSampler g = none) :
    detectBasePattern g = .ok none := by
  rcases h with h | h
  · simp [detectBasePattern, h]
  · cases hc : firstCheckpoint g with
    | none => simp [detectBasePattern, hc]
    | some c => simp [detectBasePattern, hc, h]

/-- C8: for every workflow in which no base pattern is detected (no
checkpoint-loader-and-sampler pair), translation succeeds and the
program is exactly the header, imports and configuration sections
followed by the single main-body comment
`# Could not detect base generation pattern`; no save section is
emitted. -/
theorem claim_C8 (doc : Json) (g : WorkflowGraph) (cns : List PatternMatch)
    (hp : parse doc = .ok g)
    (hnb : firstCheckpoint g = none ∨ firstSampler g = none)
    (hcn : detectControlNet g = .ok cns) :
    ∃ patterns, analyzePatterns g = .ok patterns ∧ findBase patterns = none ∧
      translateDict doc = .ok (String.intercalate "\n\n"
        [generateHeader patterns, generateImports patterns, generateConfig patterns,
         NO_BASE_COMMENT]) := by
  have hb := detectBasePattern_none g hnb
  have hpats : analyzePatterns g = .ok (cns ++ detectIPAdapter g ++ detectLora g ++
      detectUpscaling g ++ detectInpainting g) := by
    unfold analyzePatterns
    rw [hb, hcn]
    rfl
  refine ⟨_, hpats, ?_, ?_⟩
  · rw [findBase, List.find?_eq_none]
    intro p hpm
    have hty : p.pattern_type ≠ "txt2img" ∧ p.pattern_type ≠ "img2img" ∧
        p.pattern_type ≠ "sdxl_refiner" := by
      rcases List.mem_append.mp hpm with h4 | h4
      · rcases List.mem_append.mp h4 with h3 | h3
        · rcases List.mem_append.mp h3 with h2 | h2
          · rcases List.mem_append.mp h2 with h1 | h1
            · rw [detectControlNet_types g cns hcn p h1]; refine ⟨by decide, by decide, by decide⟩
            · rw [detectIPAdapter_types g p h1]; refine ⟨by decide, by decide, by decide⟩
          · rw [detectLora_types g p h2]; refine ⟨by decide, by decide, by decide⟩
        · rw [detectUpscaling_types g p h3]; refine ⟨by decide, by decide, by decide⟩
      · rw [detectInpainting_types g p h4]; refine ⟨by decide, by decide, by decide⟩
    simp [BASE_TYPES, hty.1, hty.2.1, hty.2.2]
  · have hfb : findBase (cns ++ detectIPAdapter g ++ detectLora g ++
        detectUpscaling g ++ detectInpainting g) = none := by
      rw [findBase, List.find?_eq_none]
      intro p hpm
      have hty : p.pattern_type ≠ "txt2img" ∧ p.pattern_type ≠ "img2img" ∧
          p.pattern_type ≠ "sdxl_refiner" := by
        rcases List.mem_append.mp hpm with h4 | h4
        · rcases List.mem_append.mp h4 with h3 | h3
          · rcases List.mem_append.mp h3 with h2 | h2
            · rcases List.mem_append.mp h2 with h1 | h1
              · rw [detectControlNet_types g cns hcn p h1]; refine ⟨by decide, by decide, by decide⟩
              · rw [detectIPAdapter_types g p h1]; refine ⟨by decide, by decide, by decide⟩
            · rw [detectLora_types g p h2]; refine ⟨by decide, by decide, by decide⟩
          · rw [detectUpscaling_types g p h3]; refine ⟨by decide, by decide, by decide⟩
        · rw [detectInpainting_types g p h4]; refine ⟨by decide, by decide, by decide⟩
      simp [BASE_TYPES, hty.1, hty.2.1, hty.2.2]
    unfold translateDict
    rw [hp]
    show (analyzePatterns g >>= fun patterns => generate g patterns) = _
    rw [hpats]
    show generate g (cns ++ detectIPAdapter g ++ detectLora g ++
      detectUpscaling g ++ detectInpainting g) = _
    unfold generate generateMain
    rw [hfb]
    rfl

/-- C8 (witness): a one-node workflow of unknown class has no base
pattern; its translation is the three leading sections plus the
placeholder comment. -/
theorem claim_C8_witness :
    ∃ patterns,
      analyzePatterns (match parse (.obj [("1", .obj [("class_type", .str "Foo")])]) with
        | .ok g => g | .error _ => ⟨[], [], [], []⟩) = .ok patterns ∧
      findBase patterns = none ∧
      translateDict (.obj [("1", .obj [("class_type", .str "Foo")])]) =
        .ok (String.intercalate "\n\n"
          [generateHeader patterns, generateImports patterns, generateConfig patterns,
           NO_BASE_COMMENT]) :=
  claim_C8 (.obj [("1", .obj [("class_type", .str "Foo")])]) _ [] rfl (Or.inl rfl) rfl

/-! ## C5 — refiner promotion, C6 — sampler config extraction -/

theorem refinerScan_ok_iff (L : List (String × Node)) (r : Bool)
    (h : refinerScan L = .ok r) :
    (r = true ↔ ∃ p ∈ L, p.2.class_type = .str "KSamplerAdvanced" ∧
      pyGtZero (getInputValue p.2 "start_at_step" (.int 0)) = .ok true) := by
  induction L generalizing r with
  | nil =>
    simp only [refinerScan] at h
    injection h with h
    subst h
    simp
  | cons p t ih =>
    by_cases hk : p.2.class_type = .str "KSamplerAdvanced"
    · rw [refinerScan, if_pos hk] at h
      cases hgz : pyGtZero (getInputValue p.2 "start_at_step" (.int 0)) with
      | error e => rw [hgz] at h; cases h
      | ok b =>
        rw [hgz] at h
        cases b with
        | true =>
          have h2 : (Except.ok true : Except PyErr Bool) = .ok r := h
          injection h2 with h3
          subst h3
          simp only [true_iff]
          exact ⟨p, List.mem_cons_self p t, hk, hgz⟩
        | false =>
          have ht := ih r h
          rw [ht]
          constructor
          · rintro ⟨q, hq, hq2, hq3⟩
            exact ⟨q, List.mem_cons_of_mem p hq, hq2, hq3⟩
          · rintro ⟨q, hq, hq2, hq3⟩
            rcases List.mem_cons.mp hq with rfl | hq
            · rw [hgz] at hq3; cases hq3
            · exact ⟨q, hq, hq2, hq3⟩
    · rw [refinerScan, if_neg hk] at h
      have ht := ih r h
      rw [ht]
      constructor
      · rintro ⟨q, hq, hq2, hq3⟩
        exact ⟨q, List.mem_cons_of_mem p hq, hq2, hq3⟩
      · rintro ⟨q, hq, hq2, hq3⟩
        rcases List.mem_cons.mp hq with rfl | hq
        · exact absurd hq2 hk
        · exact ⟨q, hq, hq2, hq3⟩

theorem hasRefiner_ok_iff (g : WorkflowGraph) (r : Bool)
    (h : hasRefiner g = .ok r) : (r = true ↔ refinerCondition g) := by
  unfold hasRefiner at h
  unfold refinerCondition
  by_cases hcc : 2 ≤ checkpointLoaderCount g
  · rw [if_pos hcc] at h
    injection h with h
    subst h
    simp [hcc]
  · rw [if_neg hcc] at h
    rw [refinerScan_ok_iff g.nodes r h]
    constructor
    · exact fun h2 => Or.inr h2
    · rintro (h2 | h2)
      · exact absurd h2 hcc
      · exact h2

theorem promptInsert_lookup_ne (g : WorkflowGraph) (s : Node) (iname key k : String)
    (cfg : List (String × Json)) (h : k ≠ key) :
    dictLookup (promptInsert g s iname key cfg) k = dictLookup cfg k := by
  unfold promptInsert
  cases dictLookup s.inputs iname with
  | none => rfl
  | some pi =>
    by_cases hl : pi.is_link = true
    · simp only [hl, if_true]
      cases nodesGet g pi.source_node with
      | none => rfl
      | some pn =>
        by_cases hct : pn.class_type = .str "CLIPTextEncode"
        · simp only [hct, if_pos]
          exact dictLookup_insert_ne cfg key k _ (Ne.symm h)
        · simp only [hct, if_false, reduceIte]
    · simp only [Bool.not_eq_true] at hl
      simp only [hl, Bool.false_eq_true, if_false, reduceIte]

theorem dimsInsert_lookup_ne (g : WorkflowGraph) (s : Node) (b : Bool)
    (cfg : List (String × Json)) (k : String)
    (h1 : k ≠ "width") (h2 : k ≠ "height") (h3 : k ≠ "batch_size") :
    dictLookup (dimsInsert g s b cfg) k = dictLookup cfg k := by
  unfold dimsInsert
  cases b with
  | true => rfl
  | false =>
    simp only [Bool.not_false, if_true]
    cases dictLookup s.inputs "latent_image" with
    | none => rfl
    | some li =>
      by_cases hl : li.is_link = true
      · simp only [hl, if_true]
        cases nodesGet g li.source_node with
        | none => rfl
        | some ls =>
          by_cases hct : ls.class_type = .str "EmptyLatentImage"
          · simp only [hct, if_pos]
            rw [dictLookup_insert_ne _ _ _ _ (Ne.symm h3),
              dictLookup_insert_ne _ _ _ _ (Ne.symm h2),
              dictLookup_insert_ne _ _ _ _ (Ne.symm h1)]
          · simp only [hct, if_false, reduceIte]
      · simp only [Bool.not_eq_true] at hl
        simp only [hl, Bool.false_eq_true, if_false, reduceIte]

theorem baseConfigFull_lookup_of_ne (g : WorkflowGraph) (c s : Node) (k : String)
    (hw : k ≠ "width") (hh : k ≠ "height") (hb : k ≠ "batch_size")
    (hp : k ≠ "positive_prompt") (hn : k ≠ "negative_prompt") :
    dictLookup (baseConfigFull g c s) k = dictLookup (baseConfig0 c s) k := by
  unfold baseConfigFull
  rw [dimsInsert_lookup_ne _ _ _ _ _ hw hh hb,
    promptInsert_lookup_ne _ _ _ _ _ _ hn,
    promptInsert_lookup_ne _ _ _ _ _ _ hp]

theorem detectBasePattern_shape (g : WorkflowGraph) (c s : Node) (r : Bool)
    (hc : firstCheckpoint g = some c) (hs : firstSampler g = some s)
    (hr : hasRefiner g = .ok r) :
    detectBasePattern g = .ok (some
      (if r then
        PatternMatch.mk "sdxl_refiner" [c.id, s.id]
          (dictInsert (baseConfigFull g c s) "has_refiner" (.bool true))
      else
        PatternMatch.mk (if isImg2img g s then "img2img" else "txt2img")
          [c.id, s.id] (baseConfigFull g c s))) := by
  unfold detectBasePattern
  rw [hc, hs]
  show (hasRefiner g >>= fun hr => _) = _
  rw [hr]
  cases r with
  | true => rfl
  | false => rfl

/-- C5, counterexample: in `refinerCexGraph` base detection succeeds
(its first checkpoint loader is the `unCLIPCheckpointLoader`) and the
graph contains two checkpoint loaders per the specification's own class
set — so the claim demands promotion — yet the emitted pattern is not
`sdxl_refiner` and `has_refiner` is not set, because `_has_refiner`
counts only `CheckpointLoaderSimple` and `CheckpointLoader`. -/
theorem claim_C5_counterexample :
    detectBasePattern refinerCexGraph = .ok (some refinerCexPattern) ∧
    specRefinerCondition refinerCexGraph ∧
    refinerCexPattern.pattern_type ≠ "sdxl_refiner" ∧
    dictLookup refinerCexPattern.config "has_refiner" ≠ some (.bool true) :=
  ⟨by rfl, Or.inl (by decide), by decide, by decide⟩

/-- C5 (amended): whenever a base pattern is detected (the refiner
check having evaluated without a type error), the pattern type is
promoted to `sdxl_refiner`, and `has_refiner = true` is recorded,
exactly when the graph has two or more checkpoint loaders of the
classes `_has_refiner` actually counts — `CheckpointLoaderSimple` /
`CheckpointLoader`, *not* `unCLIPCheckpointLoader` — or some
`KSamplerAdvanced` node whose `start_at_step` literal compares greater
than zero.  The original claim, with *checkpoint loader* read per the
specification's three-class definition, is refuted by
`claim_C5_counterexample`. -/
theorem claim_C5 (g : WorkflowGraph) (pm : PatternMatch)
    (hd : detectBasePattern g = .ok (some pm)) :
    (pm.pattern_type = "sdxl_refiner" ↔ refinerCondition g) ∧
    (dictLookup pm.config "has_refiner" = some (.bool true) ↔ refinerCondition g) := by
  cases hc : firstCheckpoint g with
  | none => unfold detectBasePattern at hd; rw [hc] at hd; cases hd
  | some c =>
    cases hs : firstSampler g with
    | none => unfold detectBasePattern at hd; rw [hc, hs] at hd; simp at hd
    | some s =>
      cases hr : hasRefiner g with
      | error e =>
        unfold detectBasePattern at hd
        rw [hc, hs] at hd
        have : (hasRefiner g >>= fun hr =>
            (if hr then
              pure (some (PatternMatch.mk "sdxl_refiner" [c.id, s.id]
                (dictInsert (baseConfigFull g c s) "has_refiner" (.bool true))))
            else
              pure (some (PatternMatch.mk
                (if isImg2img g s then "img2img" else "txt2img")
                [c.id, s.id] (baseConfigFull g c s))) :
              Except PyErr (Option PatternMatch))) = .ok (some pm) := hd
        rw [hr] at this
        cases this
      | ok r =>
        have hshape := detectBasePattern_shape g c s r hc hs hr
        rw [hd] at hshape
        have hpm := Option.some.inj (Except.ok.inj hshape)
        have hiff := hasRefiner_ok_iff g r hr
        cases r with
        | true =>
          have hpt : pm.pattern_type = "sdxl_refiner" := by rw [hpm]; rfl
          have hcfg : pm.config =
              dictInsert (baseConfigFull g c s) "has_refiner" (.bool true) := by
            rw [hpm]; rfl
          have hcond : refinerCondition g := hiff.mp rfl
          refine ⟨iff_of_true hpt hcond, iff_of_true ?_ hcond⟩
          rw [hcfg]
          exact dictLookup_insert_self _ _ _
        | false =>
          have hpt : pm.pattern_type =
              (if isImg2img g s then "img2img" else "txt2img") := by rw [hpm]; rfl
          have hcfg : pm.config = baseConfigFull g c s := by rw [hpm]; rfl
          have hcond : ¬ refinerCondition g := fun hx => by
            have := hiff.mpr hx
            cases this
          refine ⟨iff_of_false ?_ hcond, iff_of_false ?_ hcond⟩
          · rw [hpt]
            by_cases hi : isImg2img g s = true <;> simp [hi]
          · rw [hcfg,
              baseConfigFull_lookup_of_ne g c s _ (by decide) (by decide) (by decide)
                (by decide) (by decide)]
            simp [baseConfig0, dictLookup]

/-- C5 (witness): `baseWitnessGraph` has one checkpoint loader and no
`KSamplerAdvanced`, so its base pattern is not promoted. -/
theorem claim_C5_witness :
    (baseWitnessPattern.pattern_type = "sdxl_refiner" ↔
      refinerCondition baseWitnessGraph) ∧
    (dictLookup baseWitnessPattern.config "has_refiner" = some (.bool true) ↔
      refinerCondition baseWitnessGraph) :=
  claim_C5 baseWitnessGraph baseWitnessPattern rfl

theorem configExtract_of_lookup (pm : PatternMatch) (s : Node) (iname ckey : String)
    (d : Json) (h : dictLookup pm.config ckey = some (getInputValue s iname d)) :
    configExtract pm s iname ckey d := by
  constructor
  · intro inp hinp hlink
    rw [h]
    simp [getInputValue, hinp, hlink]
  · intro hnone
    rw [h]
    simp [getInputValue, hnone]

/-- C6: for every detected base pattern, each of the six sampler
settings is copied verbatim from the sampler node's literal input when
present, and falls back to the documented default — `steps` 20, `cfg`
7.5, `sampler_name` "euler" (config key `sampler`), `scheduler`
"normal", `seed` 0 and `denoise` 1.0 — when the input is absent. -/
theorem claim_C6 (g : WorkflowGraph) (c s : Node) (pm : PatternMatch)
    (hc : firstCheckpoint g = some c) (hs : firstSampler g = some s)
    (hd : detectBasePattern g = .ok (some pm)) :
    configExtract pm s "steps" "steps" (.int 20) ∧
    configExtract pm s "cfg" "cfg" (.float (15/2 : ℚ)) ∧
    configExtract pm s "sampler_name" "sampler" (.str "euler") ∧
    configExtract pm s "scheduler" "scheduler" (.str "normal") ∧
    configExtract pm s "seed" "seed" (.int 0) ∧
    configExtract pm s "denoise" "denoise" (.float 1) := by
  cases hr : hasRefiner g with
  | error e =>
    have hshape : detectBasePattern g = .error e := by
      unfold detectBasePattern
      rw [hc, hs]
      show (hasRefiner g >>= fun hr => _) = _
      rw [hr]
      rfl
    rw [hshape] at hd
    cases hd
  | ok r =>
    have hshape := detectBasePattern_shape g c s r hc hs hr
    rw [hd] at hshape
    have hpm := Option.some.inj (Except.ok.inj hshape)
    have hcfg : pm.config = (if r = true then
        dictInsert (baseConfigFull g c s) "has_refiner" (.bool true)
      else baseConfigFull g c s) := by
      rw [hpm]; cases r <;> rfl
    have hbase : ∀ ckey, ckey ≠ "has_refiner" →
        ckey ≠ "width" → ckey ≠ "height" → ckey ≠ "batch_size" →
        ckey ≠ "positive_prompt" → ckey ≠ "negative_prompt" →
        dictLookup pm.config ckey = dictLookup (baseConfig0 c s) ckey := by
      intro ckey hhr hw hh hb hp hn
      rw [hcfg]
      cases r with
      | true =>
        rw [if_pos rfl, dictLookup_insert_ne _ _ _ _ (Ne.symm hhr)]
        exact baseConfigFull_lookup_of_ne g c s ckey hw hh hb hp hn
      | false =>
        rw [if_neg (by decide)]
        exact baseConfigFull_lookup_of_ne g c s ckey hw hh hb hp hn
    refine ⟨?_, ?_, ?_, ?_, ?_, ?_⟩ <;>
      refine configExtract_of_lookup _ _ _ _ _ ?_
    · rw [hbase "steps" (by decide) (by decide) (by decide) (by decide) (by decide) (by decide)]
      simp [baseConfig0, dictLookup]
    · rw [hbase "cfg" (by decide) (by decide) (by decide) (by decide) (by decide) (by decide)]
      simp [baseConfig0, dictLookup]
    · rw [hbase "sampler" (by decide) (by decide) (by decide) (by decide) (by decide) (by decide)]
      simp [baseConfig0, dictLookup]
    · rw [hbase "scheduler" (by decide) (by decide) (by decide) (by decide) (by decide) (by decide)]
      simp [baseConfig0, dictLookup]
    · rw [hbase "seed" (by decide) (by decide) (by decide) (by decide) (by decide) (by decide)]
      simp [baseConfig0, dictLookup]
    · rw [hbase "denoise" (by decide) (by decide) (by decide) (by decide) (by decide) (by decide)]
      simp [baseConfig0, dictLookup]

/-- C6 (witness): in `baseWitnessGraph` the sampler's `steps` literal 30
is copied verbatim and the other settings fall back to their documented
defaults. -/
theorem claim_C6_witness :
    configExtract baseWitnessPattern
      (Node.mk "2" (.str "KSampler")
        [("steps", NodeInput.mk "steps" (.int 30) false none none)] [] (-1))
      "steps" "steps" (.int 20) ∧
    configExtract baseWitnessPattern
      (Node.mk "2" (.str "KSampler")
        [("steps", NodeInput.mk "steps" (.int 30) false none none)] [] (-1))
      "cfg" "cfg" (.float (15/2 : ℚ)) ∧
    configExtract baseWitnessPattern
      (Node.mk "2" (.str "KSampler")
        [("steps", NodeInput.mk "steps" (.int 30) false none none)] [] (-1))
      "sampler_name" "sampler" (.str "euler") ∧
    configExtract baseWitnessPattern
      (Node.mk "2" (.str "KSampler")
        [("steps", NodeInput.mk "steps" (.int 30) false none none)] [] (-1))
      "scheduler" "scheduler" (.str "normal") ∧
    configExtract baseWitnessPattern
      (Node.mk "2" (.str "KSampler")
        [("steps", NodeInput.mk "steps" (.int 30) false none none)] [] (-1))
      "seed" "seed" (.int 0) ∧
    configExtract baseWitnessPattern
      (Node.mk "2" (.str "KSampler")
        [("steps", NodeInput.mk "steps" (.int 30) false none none)] [] (-1))
      "denoise" "denoise" (.float 1) :=
  claim_C6 baseWitnessGraph
    (Node.mk "1" (.str "CheckpointLoaderSimple")
      [("ckpt_name", NodeInput.mk "ckpt_name" (.str "v1.safetensors") false none none)]
      [] (-1))
    (Node.mk "2" (.str "KSampler")
      [("steps", NodeInput.mk "steps" (.int 30) false none none)] [] (-1))
    baseWitnessPattern rfl rfl rfl

/-! ## Counting lemmas for the scheduler -/

theorem filter_or_disjoint {α : Type} (L : List α) (p q : α → Bool)
    (h : ∀ a ∈ L, ¬(p a = true ∧ q a = true)) :
    (L.filter (fun a => p a || q a)).length =
      (L.filter p).length + (L.filter q).length := by
  induction L with
  | nil => simp
  | cons a t ih =>
    have ht := ih (fun b hb => h b (List.mem_cons_of_mem a hb))
    cases hp : p a with
    | true =>
      have hq : q a = false := by
        cases hq : q a
        · rfl
        · exact absurd ⟨hp, hq⟩ (h a (List.mem_cons_self a t))
      simp [List.filter_cons, hp, hq, ht]
      omega
    | false =>
      cases hq : q a with
      | true => simp [List.filter_cons, hp, hq, ht]; omega
      | false => simp [List.filter_cons, hp, hq, ht]

theorem sum_filter_key {α : Type} (L : List α) (f : α → String) (sel : α → Bool) :
    ∀ K : List String, K.Nodup →
      ((K.map (fun u => (L.filter (fun a => sel a && f a = u)).length)).sum) =
        (L.filter (fun a => sel a && decide (f a ∈ K))).length := by
  intro K
  induction K with
  | nil =>
    intro _
    have : L.filter (fun a => sel a && decide (f a ∈ ([] : List String))) = [] := by
      apply List.filter_eq_nil_iff.mpr
      intro a _
      simp
    simp [this]
  | cons k ks ih =>
    intro hnd
    have hk : k ∉ ks := (List.nodup_cons.mp hnd).1
    have ih' := ih (List.nodup_cons.mp hnd).2
    simp only [List.map_cons, List.sum_cons, ih']
    rw [← filter_or_disjoint L (fun a => sel a && f a = k)
        (fun a => sel a && decide (f a ∈ ks))
        (by
          rintro a _ ⟨h1, h2⟩
          rw [Bool.and_eq_true] at h1 h2
          have e1 : f a = k := by simpa using h1.2
          have e2 : f a ∈ ks := by simpa using h2.2
          exact hk (e1 ▸ e2))]
    apply congrArg List.length
    apply List.filter_congr
    intro a _
    cases hsel : sel a
    · simp [hsel]
    · simp [hsel, List.mem_cons]

theorem sum_map_le_of_sublist (f : String → Nat) {l₁ l₂ : List String}
    (h : List.Sublist l₁ l₂) : (l₁.map f).sum ≤ (l₂.map f).sum := by
  induction h with
  | slnil => simp
  | cons a _ ih => simp only [List.map_cons, List.sum_cons]; omega
  | cons₂ a _ ih => simp only [List.map_cons, List.sum_cons]; omega

theorem sum_map_le_of_subperm (f : String → Nat) {l₁ l₂ : List String}
    (h : List.Subperm l₁ l₂) : (l₁.map f).sum ≤ (l₂.map f).sum := by
  obtain ⟨l, hp, hs⟩ := h
  calc (l₁.map f).sum = (l.map f).sum := ((hp.map f).sum_eq).symm
    _ ≤ (l₂.map f).sum := sum_map_le_of_sublist f hs

theorem sum_map_le_of_nodup_subset (f : String → Nat) {l₁ l₂ : List String}
    (h1 : l₁.Nodup) (h2 : l₁ ⊆ l₂) : (l₁.map f).sum ≤ (l₂.map f).sum :=
  sum_map_le_of_subperm f (List.subperm_of_subset h1 h2)

theorem pairLinkB_eq (u : String) (ip : String × NodeInput) :
    pairLinkB u ip = (srcSel ip && decide (srcOf ip = u)) := by
  unfold pairLinkB srcSel srcOf optStrTruthy
  cases hl : ip.2.is_link
  · simp
  · cases hs : ip.2.source_node with
    | none => simp
    | some s =>
      simp only [Bool.true_and]
      by_cases he : s = ""
      · simp [he]
      · by_cases hu : s = u <;> simp [he, hu]

theorem resolvedLinkB_eq (K : List String) (ip : String × NodeInput) :
    resolvedLinkB K ip = (srcSel ip && decide (srcOf ip ∈ K)) := by
  unfold resolvedLinkB srcSel srcOf optStrTruthy
  cases hl : ip.2.is_link
  · simp
  · cases hs : ip.2.source_node with
    | none => simp
    | some s => simp

theorem pairResolved_partition (M : List (String × Node)) (hnd : (keysOf M).Nodup)
    (t : String) :
    ((keysOf M).map (fun u => pairResolved M u t)).sum = resolvedLinkCount M t := by
  unfold pairResolved resolvedLinkCount
  cases hl : dictLookup M t with
  | none =>
    rw [List.sum_eq_zero]
    intro x hx
    simp only [List.mem_map] at hx
    obtain ⟨u, _, hu⟩ := hx
    exact hu.symm
  | some n =>
    have h1 : ((keysOf M).map (fun u => (n.inputs.filter (pairLinkB u)).length)).sum =
        (n.inputs.filter (fun ip => srcSel ip && decide (srcOf ip ∈ keysOf M))).length := by
      have h2 : ∀ u ∈ keysOf M,
          (n.inputs.filter (pairLinkB u)).length =
            (n.inputs.filter (fun ip => srcSel ip && decide (srcOf ip = u))).length := by
        intro u _
        apply congrArg List.length
        apply List.filter_congr
        intro ip _
        rw [pairLinkB_eq]
      rw [List.map_congr_left h2]
      exact sum_filter_key n.inputs srcOf srcSel (keysOf M) hnd
    rw [h1]
    apply congrArg List.length
    apply List.filter_congr
    intro ip _
    rw [resolvedLinkB_eq]

theorem totalConns_eq_resolved {M : List (String × Node)} (hWF : KahnWF M)
    (t : String) : totalConnsTo M t = resolvedLinkCount M t := by
  unfold totalConnsTo
  rw [List.map_congr_left (fun u hu => hWF.pair_eq u hu t)]
  exact pairResolved_partition M hWF.nodup t

theorem resolved_le_deg0 (M : List (String × Node)) (t : String) :
    (resolvedLinkCount M t : Int) ≤ deg0 M t := by
  unfold resolvedLinkCount deg0
  cases hl : dictLookup M t with
  | none => simp
  | some n =>
    have h : (n.inputs.filter (resolvedLinkB (keysOf M))).length ≤ linkInputCount n := by
      unfold linkInputCount
      rw [← List.countP_eq_length_filter, ← List.countP_eq_length_filter]
      apply List.countP_mono_left
      intro ip _ hip
      rw [resolvedLinkB_eq, Bool.and_eq_true] at hip
      unfold srcSel at hip
      rw [Bool.and_eq_true] at hip
      exact hip.1.1
    simpa using h

theorem emitted_le_total {M : List (String × Node)} (ord : List String)
    (hnd : ord.Nodup) (hsub : ∀ x ∈ ord, x ∈ keysOf M) (t : String) :
    emittedConnsTo M ord t ≤ totalConnsTo M t :=
  sum_map_le_of_nodup_subset _ hnd hsub

theorem residualDeg_nonneg {M : List (String × Node)} (hWF : KahnWF M)
    (ord : List String) (hnd : ord.Nodup) (hsub : ∀ x ∈ ord, x ∈ keysOf M)
    (t : String) : 0 ≤ residualDeg M ord t := by
  unfold residualDeg
  have h1 := emitted_le_total (M := M) ord hnd hsub t
  have h2 := totalConns_eq_resolved hWF t
  have h3 := resolved_le_deg0 M t
  omega

theorem emittedConnsTo_append (M : List (String × Node)) (o₁ o₂ : List String)
    (t : String) :
    emittedConnsTo M (o₁ ++ o₂) t = emittedConnsTo M o₁ t + emittedConnsTo M o₂ t := by
  unfold emittedConnsTo
  rw [List.map_append, List.sum_append]

theorem residualDeg_append_single (M : List (String × Node)) (ord : List String)
    (nid t : String) :
    residualDeg M (ord ++ [nid]) t = residualDeg M ord t - (connCount M nid t : Int) := by
  unfold residualDeg
  rw [emittedConnsTo_append]
  unfold emittedConnsTo
  simp only [List.map_cons, List.map_nil, List.sum_cons, List.sum_nil]
  omega

theorem conn_target_mem {M : List (String × Node)} (hWF : KahnWF M)
    {s t : String} (hs : s ∈ keysOf M) (h : 1 ≤ connCount M s t) : t ∈ keysOf M := by
  rw [hWF.pair_eq s hs t] at h
  unfold pairResolved at h
  cases hl : dictLookup M t with
  | none => rw [hl] at h; cases h
  | some n =>
    have := (dictLookup_isSome_iff_mem M t).mp (by rw [hl]; rfl)
    exact this

/-! ## Link-resolution accounting -/

theorem keysOf_map_fst (m : List (String × Node)) (f : String × Node → String × Node)
    (hf : ∀ p, (f p).1 = p.1) : keysOf (m.map f) = keysOf m := by
  unfold keysOf
  rw [List.map_map]
  exact List.map_congr_left (fun p _ => hf p)

theorem dictLookup_appendConn_self (m : List (String × Node)) (s : String)
    (c : String × String × Option Json) :
    dictLookup (appendConn m s c) s = (dictLookup m s).map
      (fun n => { n with output_connections := n.output_connections ++ [c] }) := by
  induction m with
  | nil => rfl
  | cons p t ih =>
    rcases p with ⟨k, n⟩
    by_cases hp : k = s
    · simp [appendConn, dictLookup, hp]
    · simp [appendConn, dictLookup, hp, ih]

theorem dictLookup_appendConn_ne (m : List (String × Node)) (s : String)
    (c : String × String × Option Json) (x : String) (h : x ≠ s) :
    dictLookup (appendConn m s c) x = dictLookup m x := by
  induction m with
  | nil => rfl
  | cons p t ih =>
    rcases p with ⟨k, n⟩
    by_cases hp : k = s
    · have : ¬ k = x := fun he => h (he ▸ hp)
      simp [appendConn, dictLookup, hp, this, Ne.symm h]
    · by_cases hx : k = x
      · simp [appendConn, dictLookup, hp, hx, h]
      · simp [appendConn, dictLookup, hp, hx, ih]

theorem connsOf_appendConn_self (m : List (String × Node)) (s : String)
    (c : String × String × Option Json) (h : (dictLookup m s).isSome = true) :
    connsOf (appendConn m s c) s = connsOf m s ++ [c] := by
  unfold connsOf
  rw [dictLookup_appendConn_self]
  cases hl : dictLookup m s with
  | none => rw [hl] at h; cases h
  | some n => simp

theorem connsOf_appendConn_ne (m : List (String × Node)) (s : String)
    (c : String × String × Option Json) (x : String) (h : x ≠ s) :
    connsOf (appendConn m s c) x = connsOf m x := by
  unfold connsOf
  rw [dictLookup_appendConn_ne m s c x h]

theorem dictLookup_appendConn_strip (m : List (String × Node)) (s : String)
    (c : String × String × Option Json) (x : String) :
    (dictLookup (appendConn m s c) x).map stripConns =
      (dictLookup m x).map stripConns := by
  by_cases hx : x = s
  · subst hx
    rw [dictLookup_appendConn_self]
    cases dictLookup m x with
    | none => rfl
    | some n => simp [stripConns]
  · rw [dictLookup_appendConn_ne m s c x hx]

theorem appendConn_keys (m : List (String × Node)) (s : String)
    (c : String × String × Option Json) : keysOf (appendConn m s c) = keysOf m := by
  induction m with
  | nil => rfl
  | cons p t ih =>
    rcases p with ⟨k, n⟩
    by_cases hp : k = s
    · simp [appendConn, keysOf, hp]
    · simp only [appendConn, keysOf] at ih ⊢
      simp [hp, ih]

theorem resolveStep_keys (acc : List (String × Node)) (tgt : String)
    (ip : String × NodeInput) : keysOf (resolveStep acc tgt ip) = keysOf acc := by
  unfold resolveStep
  by_cases hc : (ip.2.is_link && optStrTruthy ip.2.source_node) = true
  · rw [if_pos hc]
    cases hs : ip.2.source_node with
    | none => rfl
    | some s =>
      by_cases hl : (dictLookup acc s).isSome = true
      · simp only [hl, if_pos]
        exact appendConn_keys acc s _
      · simp only [Bool.not_eq_true] at hl
        simp [hl]
  · rw [if_neg hc]

theorem resolveStep_strip (acc : List (String × Node)) (tgt : String)
    (ip : String × NodeInput) (x : String) :
    (dictLookup (resolveStep acc tgt ip) x).map stripConns =
      (dictLookup acc x).map stripConns := by
  unfold resolveStep
  by_cases hc : (ip.2.is_link && optStrTruthy ip.2.source_node) = true
  · rw [if_pos hc]
    cases hs : ip.2.source_node with
    | none => rfl
    | some s =>
      by_cases hl : (dictLookup acc s).isSome = true
      · simp only [hl, if_pos]
        exact dictLookup_appendConn_strip acc s _ x
      · simp only [Bool.not_eq_true] at hl
        simp [hl]
  · rw [if_neg hc]

theorem resolveStep_connCount (acc : List (String × Node)) (tgt : String)
    (ip : String × NodeInput) (u t : String) (hu : u ∈ keysOf acc) :
    connCount (resolveStep acc tgt ip) u t =
      connCount acc u t + (if t = tgt ∧ pairLinkB u ip = true then 1 else 0) := by
  unfold resolveStep
  by_cases hc : (ip.2.is_link && optStrTruthy ip.2.source_node) = true
  · rw [Bool.and_eq_true] at hc
    rw [if_pos (by rw [Bool.and_eq_true]; exact hc)]
    cases hs : ip.2.source_node with
    | none => rw [hs] at hc; cases hc.2
    | some s =>
      rw [hs] at hc
      have hse : s ≠ "" := by simpa [optStrTruthy] using hc.2
      have hpl : pairLinkB u ip = decide (s = u) := by
        unfold pairLinkB
        rw [hc.1, hs]
        simp [hse]
      by_cases hl : (dictLookup acc s).isSome = true
      · simp only [hl, if_pos]
        unfold connCount
        by_cases hus : u = s
        · subst hus
          rw [connsOf_appendConn_self acc u _ hl]
          unfold targetCount
          rw [List.filter_append]
          simp only [List.length_append]
          by_cases ht : t = tgt
          · simp [ht, hpl]
          · simp [ht, hpl, Ne.symm ht]
        · rw [connsOf_appendConn_ne acc s _ u hus]
          have : pairLinkB u ip = false := by
            rw [hpl]
            simp only [decide_eq_false_iff_not]
            exact fun he => hus he.symm
          simp [this]
      · have hnone : dictLookup acc s = none := by
          cases hd : dictLookup acc s
          · rfl
          · rw [hd] at hl; exact absurd rfl hl
        simp only [hnone, Option.isSome_none, Bool.false_eq_true, if_false, reduceIte]
        have hsk : s ∉ keysOf acc := (dictLookup_eq_none_iff acc s).mp hnone
        have : pairLinkB u ip = false := by
          rw [hpl]
          have : s ≠ u := fun he => hsk (he ▸ hu)
          simp [this]
        simp [this]
  · rw [if_neg hc]
    have : pairLinkB u ip = false := by
      unfold pairLinkB
      rw [Bool.and_eq_true] at hc
      push_neg at hc
      cases hil : ip.2.is_link
      · rfl
      · have := hc hil
        cases hs : ip.2.source_node with
        | none => rfl
        | some s =>
          rw [hs] at this
          simp only [optStrTruthy, Bool.not_eq_true] at this
          have hse : s = "" := by simpa using this
          simp [hse]
    simp [this]

theorem resolveInner_keys (tgt : String) (inps : List (String × NodeInput)) :
    ∀ acc, keysOf (inps.foldl (fun a ip => resolveStep a tgt ip) acc) = keysOf acc := by
  induction inps with
  | nil => intro acc; rfl
  | cons ip rest ih =>
    intro acc
    simp only [List.foldl_cons]
    rw [ih, resolveStep_keys]

theorem resolveInner_strip (tgt : String) (inps : List (String × NodeInput)) :
    ∀ acc x, (dictLookup (inps.foldl (fun a ip => resolveStep a tgt ip) acc) x).map stripConns =
      (dictLookup acc x).map stripConns := by
  induction inps with
  | nil => intro acc x; rfl
  | cons ip rest ih =>
    intro acc x
    simp only [List.foldl_cons]
    rw [ih, resolveStep_strip]

theorem resolveInner_connCount (tgt : String) (inps : List (String × NodeInput)) :
    ∀ acc u t, u ∈ keysOf acc →
      connCount (inps.foldl (fun a ip => resolveStep a tgt ip) acc) u t =
        connCount acc u t + (if t = tgt then (inps.filter (pairLinkB u)).length else 0) := by
  induction inps with
  | nil => intro acc u t _; simp
  | cons ip rest ih =>
    intro acc u t hu
    simp only [List.foldl_cons]
    have hu' : u ∈ keysOf (resolveStep acc tgt ip) := by
      rw [resolveStep_keys]; exact hu
    rw [ih _ u t hu', resolveStep_connCount acc tgt ip u t hu]
    by_cases ht : t = tgt
    · cases hp : pairLinkB u ip with
      | true => simp [ht, hp, List.filter_cons]; omega
      | false => simp [ht, hp, List.filter_cons]
    · simp [ht]

theorem resolveOuter_keys (L : List (String × List (String × NodeInput))) :
    ∀ acc, keysOf (L.foldl
      (fun acc pr => pr.2.foldl (fun a ip => resolveStep a pr.1 ip) acc) acc) = keysOf acc := by
  induction L with
  | nil => intro acc; rfl
  | cons pr rest ih =>
    intro acc
    simp only [List.foldl_cons]
    rw [ih, resolveInner_keys]

theorem resolveOuter_strip (L : List (String × List (String × NodeInput))) :
    ∀ acc x, (dictLookup (L.foldl
      (fun acc pr => pr.2.foldl (fun a ip => resolveStep a pr.1 ip) acc) acc) x).map stripConns =
      (dictLookup acc x).map stripConns := by
  induction L with
  | nil => intro acc x; rfl
  | cons pr rest ih =>
    intro acc x
    simp only [List.foldl_cons]
    rw [ih, resolveInner_strip]

theorem resolveOuter_connCount (L : List (String × List (String × NodeInput))) :
    ∀ acc u t, u ∈ keysOf acc →
      connCount (L.foldl
        (fun acc pr => pr.2.foldl (fun a ip => resolveStep a pr.1 ip) acc) acc) u t =
        connCount acc u t +
          ((L.filter (fun pr => pr.1 = t)).map
            (fun pr => (pr.2.filter (pairLinkB u)).length)).sum := by
  induction L with
  | nil => intro acc u t _; simp
  | cons pr rest ih =>
    intro acc u t hu
    simp only [List.foldl_cons]
    have hu' : u ∈ keysOf (pr.2.foldl (fun a ip => resolveStep a pr.1 ip) acc) := by
      rw [resolveInner_keys]; exact hu
    rw [ih _ u t hu', resolveInner_connCount pr.1 pr.2 acc u t hu]
    by_cases ht : pr.1 = t
    · rw [List.filter_cons_of_pos (by simpa using ht), if_pos ht.symm]
      simp only [List.map_cons, List.sum_cons]
      omega
    · rw [List.filter_cons_of_neg (by simpa using ht), if_neg (fun he => ht he.symm)]
      omega

theorem filter_fst_inputs_of_nodup (m : List (String × Node)) :
    (keysOf m).Nodup → ∀ t : String,
      ((m.map (fun p => (p.1, p.2.inputs))).filter (fun pr => pr.1 = t)) =
        (match dictLookup m t with
         | some n => [(t, n.inputs)]
         | none => []) := by
  induction m with
  | nil => intro _ t; rfl
  | cons p rest ih =>
    intro hnd t
    rcases p with ⟨k, n⟩
    have hnd' : (keysOf rest).Nodup := (List.nodup_cons.mp hnd).2
    have hknotin : k ∉ keysOf rest := (List.nodup_cons.mp hnd).1
    by_cases hk : k = t
    · subst hk
      have hrest : ((rest.map (fun p => (p.1, p.2.inputs))).filter (fun pr => pr.1 = k)) = [] := by
        apply List.filter_eq_nil_iff.mpr
        intro pr hpr
        simp only [List.mem_map] at hpr
        obtain ⟨q, hq, rfl⟩ := hpr
        simp only [decide_eq_true_eq]
        intro he
        exact hknotin (he ▸ (List.mem_map.mpr ⟨q, hq, rfl⟩))
      simp [dictLookup, List.filter_cons, hrest]
    · rw [List.map_cons, List.filter_cons_of_neg (by simpa using hk)]
      rw [show dictLookup ((k, n) :: rest) t = dictLookup rest t from by
        simp [dictLookup, hk]]
      exact ih hnd' t

theorem resolveLinks_keys (m : List (String × Node)) :
    keysOf (resolveLinks m) = keysOf m := by
  unfold resolveLinks
  exact resolveOuter_keys _ m

theorem resolveLinks_strip (m : List (String × Node)) (x : String) :
    (dictLookup (resolveLinks m) x).map stripConns = (dictLookup m x).map stripConns := by
  unfold resolveLinks
  exact resolveOuter_strip _ m x

theorem resolveLinks_pair_eq (m : List (String × Node))
    (hnd : (keysOf m).Nodup)
    (hempty : ∀ x n, dictLookup m x = some n → n.output_connections = [])
    (u t : String) (hu : u ∈ keysOf m) :
    connCount (resolveLinks m) u t = pairResolved (resolveLinks m) u t := by
  unfold resolveLinks
  rw [resolveOuter_connCount _ m u t hu]
  have h0 : connCount m u t = 0 := by
    unfold connCount connsOf targetCount
    cases hl : dictLookup m u with
    | none => rfl
    | some n => simp [hempty u n hl]
  rw [h0, filter_fst_inputs_of_nodup m hnd t]
  have hstrip := resolveOuter_strip (m.map (fun p => (p.1, p.2.inputs))) m t
  cases hl : dictLookup m t with
  | none =>
    rw [hl] at hstrip
    simp at hstrip
    have : dictLookup (resolveLinks m) t = none := by
      cases hd : dictLookup ((m.map (fun p => (p.1, p.2.inputs))).foldl
          (fun acc pr => pr.2.foldl (fun a ip => resolveStep a pr.1 ip) acc) m) t with
      | none => exact hd
      | some n' => rw [hd] at hstrip; simp at hstrip
    unfold resolveLinks at this
    simp [pairResolved, this]
  | some n =>
    rw [hl] at hstrip
    cases hd : dictLookup ((m.map (fun p => (p.1, p.2.inputs))).foldl
        (fun acc pr => pr.2.foldl (fun a ip => resolveStep a pr.1 ip) acc) m) t with
    | none => rw [hd] at hstrip; cases hstrip
    | some n' =>
      rw [hd] at hstrip
      simp only [Option.map] at hstrip
      injection hstrip with hstrip
      have hinp : n'.inputs = n.inputs := by
        have := congrArg Node.inputs hstrip
        simpa [stripConns] using this
      simp [pairResolved, hd, hinp]

theorem resolveLinks_exec (m : List (String × Node))
    (hinit : ∀ x n, dictLookup m x = some n → n.execution_order = -1)
    (x : String) (n : Node) (h : dictLookup (resolveLinks m) x = some n) :
    n.execution_order = -1 := by
  have hstrip := resolveLinks_strip m x
  rw [h] at hstrip
  cases hl : dictLookup m x with
  | none => rw [hl] at hstrip; cases hstrip
  | some n0 =>
    rw [hl] at hstrip
    simp only [Option.map] at hstrip
    injection hstrip with hstrip
    have := congrArg Node.execution_order hstrip
    simp only [stripConns] at this
    rw [this]
    exact hinit x n0 hl

/-! ## Parser-pass invariants -/

theorem keys_dictInsert {α : Type} (l : List (String × α)) (k : String) (v : α) :
    (dictInsert l k v).map (·.1) =
      (if k ∈ l.map (·.1) then l.map (·.1) else l.map (·.1) ++ [k]) := by
  induction l with
  | nil => simp [dictInsert]
  | cons p t ih =>
    rcases p with ⟨k', v'⟩
    by_cases hk : k' = k
    · subst hk
      simp [dictInsert]
    · simp only [dictInsert, hk, if_false, reduceIte, List.map_cons, ih]
      by_cases hm : k ∈ t.map (·.1)
      · simp [hm, Ne.symm hk]
      · simp [hm, Ne.symm hk]

theorem nodup_keys_dictInsert {α : Type} (l : List (String × α)) (k : String) (v : α)
    (h : (l.map (·.1)).Nodup) : ((dictInsert l k v).map (·.1)).Nodup := by
  rw [keys_dictInsert]
  by_cases hm : k ∈ l.map (·.1)
  · simpa [hm] using h
  · simp only [hm, if_false, reduceIte]
    rw [List.nodup_append]
    exact ⟨h, List.nodup_singleton k, by simpa using hm⟩

theorem dictLookup_dictInsert_cases {α : Type} (l : List (String × α)) (k : String)
    (v : α) (x : String) (n : α) (h : dictLookup (dictInsert l k v) x = some n) :
    (x = k ∧ n = v) ∨ dictLookup l x = some n := by
  by_cases hx : x = k
  · subst hx
    rw [dictLookup_insert_self] at h
    injection h with h
    exact Or.inl ⟨rfl, h.symm⟩
  · rw [dictLookup_insert_ne l k x v (fun he => hx he.symm)] at h
    exact Or.inr h

theorem parseNode_props (nid : String) (data : Json) (n : Node)
    (h : parseNode nid data = .ok n) :
    n.execution_order = -1 ∧ n.output_connections = [] := by
  cases data with
  | obj fields =>
    simp only [parseNode] at h
    cases hdg : dictGetD fields "inputs" (.obj []) with
    | obj inputFields =>
      rw [hdg] at h
      injection h with h
      subst h
      exact ⟨rfl, rfl⟩
    | null => rw [hdg] at h; cases h
    | bool b => rw [hdg] at h; cases h
    | int i => rw [hdg] at h; cases h
    | float q => rw [hdg] at h; cases h
    | str s => rw [hdg] at h; cases h
    | arr xs => rw [hdg] at h; cases h
  | null => cases h
  | bool b => cases h
  | int i => cases h
  | float q => cases h
  | str s => cases h
  | arr xs => cases h

theorem parseNodesPass_aux (fields : List (String × Json)) :
    ∀ (acc m0 : List (String × Node)),
      (keysOf acc).Nodup →
      (∀ x n, dictLookup acc x = some n →
        n.execution_order = -1 ∧ n.output_connections = []) →
      (fields.foldlM (fun acc p => do
        let n ← parseNode p.1 p.2
        pure (dictInsert acc p.1 n)) acc : Except PyErr (List (String × Node))) = .ok m0 →
      (keysOf m0).Nodup ∧
        (∀ x n, dictLookup m0 x = some n →
          n.execution_order = -1 ∧ n.output_connections = []) := by
  induction fields with
  | nil =>
    intro acc m0 hnd hinit h
    simp only [List.foldlM_nil] at h
    injection h with h
    subst h
    exact ⟨hnd, hinit⟩
  | cons p t ih =>
    intro acc m0 hnd hinit h
    simp only [List.foldlM_cons] at h
    cases hpn : parseNode p.1 p.2 with
    | error e => rw [hpn] at h; cases h
    | ok n =>
      rw [hpn] at h
      refine ih (dictInsert acc p.1 n) m0 ?_ ?_ h
      · exact nodup_keys_dictInsert acc p.1 n hnd
      · intro x q hq
        rcases dictLookup_dictInsert_cases acc p.1 n x q hq with ⟨_, rfl⟩ | hq2
        · exact parseNode_props p.1 p.2 _ hpn
        · exact hinit x q hq2

theorem parseNodesPass_props (fields : List (String × Json)) (m0 : List (String × Node))
    (h : parseNodesPass fields = .ok m0) :
    (keysOf m0).Nodup ∧
      (∀ x n, dictLookup m0 x = some n →
        n.execution_order = -1 ∧ n.output_connections = []) :=
  parseNodesPass_aux fields [] m0 (by simp [keysOf]) (by intro x n h2; cases h2) h

/-- Decompose a successful `parse` into its passes. -/
theorem parse_ok_parts (doc : Json) (g : WorkflowGraph) (h : parse doc = .ok g) :
    ∃ fields m0, doc = .obj fields ∧ parseNodesPass fields = .ok m0 ∧
      g.nodes = (computeExecutionOrder (resolveLinks m0)).1 ∧
      g.execution_order = (computeExecutionOrder (resolveLinks m0)).2 := by
  cases doc with
  | obj fields =>
    simp only [parse] at h
    cases hpp : parseNodesPass fields with
    | error e => rw [hpp] at h; cases h
    | ok m0 =>
      rw [hpp] at h
      have h2 : (Except.ok (WorkflowGraph.mk
          (computeExecutionOrder (resolveLinks m0)).1
          (rootNodesOf (resolveLinks m0))
          (terminalNodesOf (resolveLinks m0))
          (computeExecutionOrder (resolveLinks m0)).2) :
          Except PyErr WorkflowGraph) = .ok g := h
      injection h2 with h2
      exact ⟨fields, m0, rfl, hpp, by rw [← h2], by rw [← h2]⟩
  | null => cases h
  | bool b => cases h
  | int i => cases h
  | float q => cases h
  | str s => cases h
  | arr xs => cases h

/-- A successfully parsed document's resolved node map is well-formed. -/
theorem parse_WF (fields : List (String × Json))
    (m0 : List (String × Node)) (hpp : parseNodesPass fields = .ok m0) :
    KahnWF (resolveLinks m0) := by
  obtain ⟨hnd, hinit⟩ := parseNodesPass_props fields m0 hpp
  refine ⟨?_, ?_, ?_⟩
  · rw [resolveLinks_keys]; exact hnd
  · intro u hu t
    rw [resolveLinks_keys] at hu
    exact resolveLinks_pair_eq m0 hnd (fun x n h2 => (hinit x n h2).2) u t hu
  · exact resolveLinks_exec m0 (fun x n h2 => (hinit x n h2).1)

/-! ## The decrement pass -/

theorem updFn_self (f : String → Int) (k : String) (v : Int) : updFn f k v k = v := by
  unfold updFn
  rw [if_pos rfl]

theorem updFn_ne (f : String → Int) (k : String) (v : Int) (x : String) (h : x ≠ k) :
    updFn f k v x = f x := by
  unfold updFn
  rw [if_neg h]

theorem targetCount_cons (c : String × String × Option Json)
    (C : List (String × String × Option Json)) (x : String) :
    targetCount (c :: C) x = (if c.1 = x then 1 else 0) + targetCount C x := by
  unfold targetCount
  by_cases hc : c.1 = x
  · rw [List.filter_cons_of_pos (by simpa using hc), if_pos hc]
    simp only [List.length_cons]
    omega
  · rw [List.filter_cons_of_neg (by simpa using hc), if_neg hc]
    simp

theorem decStep_fold (C : List (String × String × Option Json)) :
    ∀ (d : String → Int) (q : List String),
      (∀ t, (targetCount C t : Int) ≤ d t) →
      ∃ A, (C.foldl decStep (d, q)).2 = q ++ A ∧
        (∀ x, (C.foldl decStep (d, q)).1 x = d x - (targetCount C x : Int)) ∧
        A.Nodup ∧ A.length ≤ C.length ∧
        (∀ t, t ∈ A ↔ (0 < d t ∧ d t = (targetCount C t : Int))) := by
  induction C with
  | nil =>
    intro d q _
    refine ⟨[], by simp, ?_, List.nodup_nil, by simp, ?_⟩
    · intro x; simp [targetCount]
    · intro t
      simp only [List.not_mem_nil, false_iff, targetCount, List.filter_nil,
        List.length_nil, Nat.cast_zero]
      rintro ⟨h1, h2⟩
      omega
  | cons c C' ih =>
    intro d q hub
    have hcnt1 : 1 ≤ targetCount (c :: C') c.1 := by
      rw [targetCount_cons, if_pos rfl]
      omega
    have hd1ub : ∀ t, (targetCount C' t : Int) ≤ updFn d c.1 (d c.1 - 1) t := by
      intro t
      by_cases ht : t = c.1
      · subst ht
        have h6 := hub c.1
        rw [targetCount_cons, if_pos rfl] at h6
        rw [updFn_self]
        push_cast at h6 ⊢
        omega
      · have h6 := hub t
        rw [targetCount_cons, if_neg (fun he => ht he.symm)] at h6
        rw [updFn_ne _ _ _ _ ht]
        push_cast at h6 ⊢
        omega
    simp only [List.foldl_cons]
    by_cases hz : updFn d c.1 (d c.1 - 1) c.1 = 0
    · have hstep : decStep (d, q) c = (updFn d c.1 (d c.1 - 1), q ++ [c.1]) := by
        unfold decStep
        simp only [hz]
        rfl
      rw [hstep]
      obtain ⟨A', h1, h2, h3, h4, h5⟩ := ih (updFn d c.1 (d c.1 - 1)) (q ++ [c.1]) hd1ub
      have hdc : d c.1 = 1 := by
        rw [updFn_self] at hz
        omega
      have hcntc : (targetCount (c :: C') c.1 : Int) = 1 := by
        have h6 := hub c.1
        rw [hdc] at h6
        have h7 : (1 : Int) ≤ targetCount (c :: C') c.1 := by exact_mod_cast hcnt1
        omega
      have hcntC' : (targetCount C' c.1 : Int) = 0 := by
        rw [targetCount_cons, if_pos rfl] at hcntc
        push_cast at hcntc ⊢
        omega
      have hc1notA' : c.1 ∉ A' := by
        intro hmem
        have h6 := (h5 c.1).mp hmem
        rw [updFn_self] at h6
        omega
      refine ⟨c.1 :: A', ?_, ?_, ?_, ?_, ?_⟩
      · rw [h1, List.append_assoc]
        rfl
      · intro x
        rw [h2 x]
        by_cases hx : x = c.1
        · subst hx
          rw [updFn_self, hcntC', hcntc]
          omega
        · rw [updFn_ne _ _ _ _ hx, targetCount_cons, if_neg (fun he => hx he.symm)]
          push_cast
          omega
      · exact List.nodup_cons.mpr ⟨hc1notA', h3⟩
      · simp only [List.length_cons]
        omega
      · intro t
        by_cases ht : t = c.1
        · subst ht
          simp only [List.mem_cons, true_or, true_iff]
          rw [hcntc, hdc]
          omega
        · simp only [List.mem_cons, ht, false_or]
          rw [h5 t, updFn_ne _ _ _ _ ht, targetCount_cons,
            if_neg (fun he => ht he.symm)]
          push_cast
          omega
    · have hstep : decStep (d, q) c = (updFn d c.1 (d c.1 - 1), q) := by
        unfold decStep
        have h6 : (updFn d c.1 (d c.1 - 1) c.1 == 0) = false := by
          simpa using hz
        simp only [h6]
        rfl
      rw [hstep]
      obtain ⟨A', h1, h2, h3, h4, h5⟩ := ih (updFn d c.1 (d c.1 - 1)) q hd1ub
      have hdcgt : 1 < d c.1 := by
        rw [updFn_self] at hz
        have h6 := hub c.1
        have h7 : (1 : Int) ≤ targetCount (c :: C') c.1 := by exact_mod_cast hcnt1
        omega
      refine ⟨A', h1, ?_, h3, by simp only [List.length_cons]; omega, ?_⟩
      · intro x
        rw [h2 x]
        by_cases hx : x = c.1
        · subst hx
          rw [updFn_self, targetCount_cons, if_pos rfl]
          push_cast
          omega
        · rw [updFn_ne _ _ _ _ hx, targetCount_cons, if_neg (fun he => hx he.symm)]
          push_cast
          omega
      · intro t
        rw [h5 t]
        by_cases ht : t = c.1
        · subst ht
          rw [updFn_self, targetCount_cons, if_pos rfl]
          push_cast
          omega
        · rw [updFn_ne _ _ _ _ ht, targetCount_cons, if_neg (fun he => ht he.symm)]
          push_cast
          omega


/-! ## Queue sorting, stamping, and congruence -/

theorem dictLookup_fst_of_nodup {α : Type} (l : List (String × α))
    (hnd : (l.map (·.1)).Nodup) (p : String × α) (hp : p ∈ l) :
    dictLookup l p.1 = some p.2 := by
  induction l with
  | nil => cases hp
  | cons q t ih =>
    obtain ⟨k, v⟩ := q
    rcases List.mem_cons.mp hp with h1 | h1
    · rw [← h1]
      unfold dictLookup
      rw [if_pos rfl]
    · have hmem : p.1 ∈ t.map (·.1) := List.mem_map.mpr ⟨p, h1, rfl⟩
      rw [List.map_cons] at hnd
      have hq : k ≠ p.1 := fun he => (List.nodup_cons.mp hnd).1 (he ▸ hmem)
      unfold dictLookup
      rw [if_neg hq]
      exact ih (List.nodup_cons.mp hnd).2 h1

theorem sortQueue_perm (q : List String) : (sortQueue q).Perm q :=
  List.perm_insertionSort _ q

theorem sortQueue_sorted (q : List String) :
    List.Sorted (fun a b : String => a ≤ b) (sortQueue q) :=
  List.sorted_insertionSort _ q

theorem keysOf_setExec (m : List (String × Node)) (nid : String) (idx : Int) :
    keysOf (setExec m nid idx) = keysOf m := by
  induction m with
  | nil => rfl
  | cons p t ih =>
    obtain ⟨k, n⟩ := p
    unfold setExec
    by_cases hk : k = nid
    · rw [if_pos hk]; rfl
    · rw [if_neg hk]
      unfold keysOf at ih ⊢
      simp only [List.map_cons, ih]

theorem dictLookup_setExec_ne (m : List (String × Node)) (nid : String) (idx : Int)
    (x : String) (h : x ≠ nid) :
    dictLookup (setExec m nid idx) x = dictLookup m x := by
  induction m with
  | nil => rfl
  | cons p t ih =>
    obtain ⟨k, n⟩ := p
    unfold setExec
    by_cases hk : k = nid
    · rw [if_pos hk]
      have hkx : ¬ (k = x) := fun he => h (by rw [← he, hk])
      unfold dictLookup
      rw [if_neg hkx, if_neg hkx]
    · rw [if_neg hk]
      unfold dictLookup
      by_cases hx : k = x
      · rw [if_pos hx, if_pos hx]
      · rw [if_neg hx, if_neg hx]
        exact ih

theorem dictLookup_setExec_self (m : List (String × Node)) (nid : String) (idx : Int) :
    dictLookup (setExec m nid idx) nid =
      (dictLookup m nid).map (fun n => { n with execution_order := idx }) := by
  induction m with
  | nil => rfl
  | cons p t ih =>
    obtain ⟨k, n⟩ := p
    unfold setExec
    by_cases hk : k = nid
    · rw [if_pos hk]
      unfold dictLookup
      rw [if_pos hk, if_pos hk]
      rfl
    · rw [if_neg hk]
      unfold dictLookup
      rw [if_neg hk, if_neg hk]
      exact ih

theorem connsOf_congr (m M : List (String × Node))
    (hs : ∀ x, (dictLookup m x).map stripExec = (dictLookup M x).map stripExec)
    (x : String) : connsOf m x = connsOf M x := by
  have h2 := hs x
  unfold connsOf
  cases h1 : dictLookup m x with
  | none =>
    cases h3 : dictLookup M x with
    | none => rfl
    | some n2 => rw [h1, h3] at h2; simp at h2
  | some n1 =>
    cases h3 : dictLookup M x with
    | none => rw [h1, h3] at h2; simp at h2
    | some n2 =>
      rw [h1, h3] at h2
      simp only [Option.map] at h2
      injection h2 with h2
      have h5 := congrArg Node.output_connections h2
      exact h5

theorem deg0_congr (m M : List (String × Node))
    (hs : ∀ x, (dictLookup m x).map stripExec = (dictLookup M x).map stripExec)
    (x : String) : deg0 m x = deg0 M x := by
  have h2 := hs x
  unfold deg0
  cases h1 : dictLookup m x with
  | none =>
    cases h3 : dictLookup M x with
    | none => rfl
    | some n2 => rw [h1, h3] at h2; simp at h2
  | some n1 =>
    cases h3 : dictLookup M x with
    | none => rw [h1, h3] at h2; simp at h2
    | some n2 =>
      rw [h1, h3] at h2
      simp only [Option.map] at h2
      injection h2 with h2
      have h4 := congrArg Node.inputs h2
      have h5 : n1.inputs = n2.inputs := h4
      show ((List.filter (fun ip => ip.2.is_link) n1.inputs).length : Int) =
        ((List.filter (fun ip => ip.2.is_link) n2.inputs).length : Int)
      rw [h5]

theorem connCount_congr (m M : List (String × Node))
    (hs : ∀ x, (dictLookup m x).map stripExec = (dictLookup M x).map stripExec)
    (s t : String) : connCount m s t = connCount M s t := by
  unfold connCount
  rw [connsOf_congr m M hs s]

theorem emittedConnsTo_congr (m M : List (String × Node))
    (hs : ∀ x, (dictLookup m x).map stripExec = (dictLookup M x).map stripExec)
    (ord : List String) (t : String) :
    emittedConnsTo m ord t = emittedConnsTo M ord t := by
  unfold emittedConnsTo
  apply congrArg List.sum
  apply List.map_congr_left
  intro s _
  exact connCount_congr m M hs s t

theorem residualDeg_congr (m M : List (String × Node))
    (hs : ∀ x, (dictLookup m x).map stripExec = (dictLookup M x).map stripExec)
    (ord : List String) (t : String) :
    residualDeg m ord t = residualDeg M ord t := by
  unfold residualDeg
  rw [deg0_congr m M hs t, emittedConnsTo_congr m M hs ord t]

theorem isReady_congr (m M : List (String × Node))
    (hk : keysOf m = keysOf M)
    (hs : ∀ x, (dictLookup m x).map stripExec = (dictLookup M x).map stripExec)
    (ord : List String) (x : String) : isReady m ord x ↔ isReady M ord x := by
  unfold isReady
  rw [hk, residualDeg_congr m M hs ord x]

theorem stepwiseLeast_congr (m M : List (String × Node))
    (hk : keysOf m = keysOf M)
    (hs : ∀ x, (dictLookup m x).map stripExec = (dictLookup M x).map stripExec)
    (ord : List String) : stepwiseLeast m ord ↔ stepwiseLeast M ord := by
  unfold stepwiseLeast
  simp only [isReady_congr m M hk hs]

theorem kahnComplete_congr (m M : List (String × Node))
    (hk : keysOf m = keysOf M)
    (hs : ∀ x, (dictLookup m x).map stripExec = (dictLookup M x).map stripExec)
    (ord : List String) : kahnComplete m ord ↔ kahnComplete M ord := by
  unfold kahnComplete
  simp only [isReady_congr m M hk hs]

theorem linkEdge_congr (m M : List (String × Node))
    (hs : ∀ x, (dictLookup m x).map stripExec = (dictLookup M x).map stripExec)
    (a b : String) : linkEdge m a b ↔ linkEdge M a b := by
  unfold linkEdge
  rw [connsOf_congr m M hs a]

/-! ## Sums and indices -/

theorem sum_map_add_split (f g : String → Nat) (l : List String) :
    (l.map (fun x => f x + g x)).sum = (l.map f).sum + (l.map g).sum := by
  induction l with
  | nil => rfl
  | cons a t ih => simp only [List.map_cons, List.sum_cons, ih]; omega

theorem length_le_sum_of_one_le (f : String → Nat) (l : List String)
    (h : ∀ x ∈ l, 1 ≤ f x) : l.length ≤ (l.map f).sum := by
  induction l with
  | nil => simp
  | cons a t ih =>
    have h1 := h a (List.mem_cons_self a t)
    have h2 := ih (fun x hx => h x (List.mem_cons_of_mem a hx))
    simp only [List.map_cons, List.sum_cons, List.length_cons]
    omega

theorem indexOf_append_left_of_mem (l₁ l₂ : List String) (a : String) (h : a ∈ l₁) :
    (l₁ ++ l₂).indexOf a = l₁.indexOf a := by
  induction l₁ with
  | nil => cases h
  | cons b t ih =>
    by_cases hb : b = a
    · rw [hb]
      simp [List.indexOf_cons_self]
    · rcases List.mem_cons.mp h with h1 | h1
      · exact absurd h1.symm hb
      · simp only [List.cons_append, List.indexOf_cons_ne _ hb, ih h1]

theorem indexOf_append_self_of_not_mem (l : List String) (a : String) (h : a ∉ l) :
    (l ++ [a]).indexOf a = l.length := by
  induction l with
  | nil => simp [List.indexOf_cons_self]
  | cons b t ih =>
    have hb : b ≠ a := fun he => h (he ▸ List.mem_cons_self b t)
    have ht : a ∉ t := fun he => h (List.mem_cons_of_mem b he)
    simp only [List.cons_append, List.indexOf_cons_ne _ hb, ih ht, List.length_cons]

theorem indexOf_lt_of_mem_take (l : List String) (i : Nat) (a : String)
    (h : a ∈ l.take i) : l.indexOf a < i := by
  have h1 : (l.take i ++ l.drop i).indexOf a = (l.take i).indexOf a :=
    indexOf_append_left_of_mem _ _ a h
  rw [List.take_append_drop] at h1
  have h2 : (l.take i).indexOf a < (l.take i).length :=
    List.indexOf_lt_length.mpr h
  have h3 : (l.take i).length ≤ i := by
    rw [List.length_take]
    omega
  omega

/-! ## Parse success under the shape condition -/

theorem parseNode_ok_of_shape (nid : String) (nf : List (String × Json))
    (h : ∃ inputFields, dictGetD nf "inputs" (.obj []) = .obj inputFields) :
    ∃ n, parseNode nid (.obj nf) = .ok n := by
  obtain ⟨inputFields, hf⟩ := h
  cases hpn : parseNode nid (.obj nf) with
  | ok n => exact ⟨n, rfl⟩
  | error e =>
    simp only [parseNode] at hpn
    rw [hf] at hpn
    cases hpn

theorem parseNodesPass_ok_of_shape : ∀ (fields : List (String × Json)),
    (∀ p ∈ fields, ∃ nf, p.2 = Json.obj nf ∧
      ∃ inputFields, dictGetD nf "inputs" (.obj []) = .obj inputFields) →
    ∀ acc : List (String × Node),
      ∃ m, (fields.foldlM (fun acc p => do
        let n ← parseNode p.1 p.2
        pure (dictInsert acc p.1 n)) acc :
          Except PyErr (List (String × Node))) = .ok m := by
  intro fields
  induction fields with
  | nil => intro _ acc; exact ⟨acc, rfl⟩
  | cons p t ih =>
    intro h acc
    obtain ⟨nf, hnf, hshape⟩ := h p (List.mem_cons_self p t)
    obtain ⟨n, hn⟩ := parseNode_ok_of_shape p.1 nf hshape
    obtain ⟨m, hm⟩ := ih (fun q hq => h q (List.mem_cons_of_mem p hq)) (dictInsert acc p.1 n)
    refine ⟨m, ?_⟩
    simp only [List.foldlM_cons]
    rw [hnf, hn]
    exact hm

theorem parse_ok_of_shape (doc : Json) (h : wellShapedDoc doc = true) :
    ∃ g, parse doc = .ok g := by
  cases doc with
  | obj fields =>
    unfold wellShapedDoc at h
    have h2 : ∀ p ∈ fields, ∃ nf, p.2 = Json.obj nf ∧
        ∃ inputFields, dictGetD nf "inputs" (.obj []) = .obj inputFields := by
      intro p hp
      have h3 := (List.all_eq_true.mp h) p hp
      cases hp2 : p.2 with
      | obj nf =>
        rw [hp2] at h3
        have h4 : (match dictGetD nf "inputs" (Json.obj []) with
          | Json.obj _ => true
          | _ => false) = true := h3
        cases hdg : dictGetD nf "inputs" (.obj []) with
        | obj inputFields => exact ⟨nf, rfl, inputFields, hdg⟩
        | null => rw [hdg] at h4; cases h4
        | bool b => rw [hdg] at h4; cases h4
        | int i => rw [hdg] at h4; cases h4
        | float q => rw [hdg] at h4; cases h4
        | str s => rw [hdg] at h4; cases h4
        | arr xs => rw [hdg] at h4; cases h4
      | null => rw [hp2] at h3; cases h3
      | bool b => rw [hp2] at h3; cases h3
      | int i => rw [hp2] at h3; cases h3
      | float q => rw [hp2] at h3; cases h3
      | str s => rw [hp2] at h3; cases h3
      | arr xs => rw [hp2] at h3; cases h3
    obtain ⟨m0, hm0⟩ := parseNodesPass_ok_of_shape fields h2 []
    cases hpr : parse (Json.obj fields) with
    | ok g => exact ⟨g, rfl⟩
    | error e =>
      simp only [parse] at hpr
      rw [show parseNodesPass fields = .ok m0 from hm0] at hpr
      cases hpr
  | null => simp [wellShapedDoc] at h
  | bool b => simp [wellShapedDoc] at h
  | int i => simp [wellShapedDoc] at h
  | float q => simp [wellShapedDoc] at h
  | str s => simp [wellShapedDoc] at h
  | arr xs => simp [wellShapedDoc] at h


theorem sumDeg_nil {M : List (String × Node)} (hnd : (keysOf M).Nodup) :
    sumDeg M [] = (M.map (fun p => linkInputCount p.2)).sum := by
  unfold sumDeg
  unfold keysOf
  rw [List.map_map]
  apply congrArg List.sum
  apply List.map_congr_left
  intro p hp
  have h1 : dictLookup M p.1 = some p.2 := dictLookup_fst_of_nodup M hnd p hp
  show (residualDeg M [] p.1).toNat = linkInputCount p.2
  unfold residualDeg emittedConnsTo
  simp only [List.map_nil, List.sum_nil]
  unfold deg0
  rw [h1]
  simp

theorem sumDeg_step {M : List (String × Node)} (hWF : KahnWF M)
    (order : List String) (nid : String)
    (hnd : (order ++ [nid]).Nodup) (hsub : ∀ x ∈ order ++ [nid], x ∈ keysOf M) :
    sumDeg M (order ++ [nid]) +
        ((keysOf M).map (fun x => connCount M nid x)).sum = sumDeg M order := by
  unfold sumDeg
  rw [← sum_map_add_split]
  apply congrArg List.sum
  apply List.map_congr_left
  intro x _
  have h1 := residualDeg_append_single M order nid x
  have h2 := residualDeg_nonneg hWF (order ++ [nid]) hnd hsub x
  have h3 := residualDeg_nonneg hWF order (List.nodup_append.mp hnd).1
      (fun y hy => hsub y (List.mem_append_left _ hy)) x
  omega

/-! ## The Kahn loop invariant -/

theorem residual_zero_of_emitted {M : List (String × Node)} (hWF : KahnWF M)
    (ord : List String) (hnd : ord.Nodup) (hsub : ∀ x ∈ ord, x ∈ keysOf M)
    (hready : ∀ i (hi : i < ord.length), isReady M (ord.take i) (ord.get ⟨i, hi⟩))
    (x : String) (hx : x ∈ ord) : residualDeg M ord x = 0 := by
  have hi : ord.indexOf x < ord.length := List.indexOf_lt_length.mpr hx
  have hget : ord.get ⟨ord.indexOf x, hi⟩ = x := List.indexOf_get hi
  have h0 : residualDeg M (ord.take (ord.indexOf x)) x = 0 := by
    have h1 := (hready (ord.indexOf x) hi).2.2
    rw [hget] at h1
    exact h1
  have h2 : emittedConnsTo M ord x =
      emittedConnsTo M (ord.take (ord.indexOf x)) x +
        emittedConnsTo M (ord.drop (ord.indexOf x)) x := by
    conv_lhs => rw [← List.take_append_drop (ord.indexOf x) ord]
    exact emittedConnsTo_append M _ _ x
  have h3 := residualDeg_nonneg hWF ord hnd hsub x
  unfold residualDeg at h0 h3 ⊢
  omega

theorem kahnInit_inv {M : List (String × Node)} (hWF : KahnWF M) :
    KahnInv M M (deg0 M) ((M.map (·.1)).filter (fun x => deg0 M x == 0)) [] 0 := by
  have hq : ∀ x, x ∈ (M.map (·.1)).filter (fun x => deg0 M x == 0) ↔
      (x ∈ keysOf M ∧ deg0 M x = 0) := by
    intro x
    rw [List.mem_filter]
    unfold keysOf
    simp
  refine ⟨rfl, fun x => rfl, ?_, ?_, ?_, ?_, ?_, List.nodup_nil, ?_, ?_, ?_⟩
  · intro x n hl
    simpa using hWF.exec_init x n hl
  · intro x
    unfold residualDeg emittedConnsTo
    simp
  · exact List.Nodup.filter _ hWF.nodup
  · intro x hx
    obtain ⟨h1, h2⟩ := (hq x).mp hx
    refine ⟨h1, by simp, ?_⟩
    unfold residualDeg emittedConnsTo
    simp [h2]
  · intro x hx
    obtain ⟨h1, _, h3⟩ := hx
    refine (hq x).mpr ⟨h1, ?_⟩
    unfold residualDeg emittedConnsTo at h3
    simpa using h3
  · intro x hx
    cases hx
  · simp
  · intro i hi
    exact absurd hi (by simp)

theorem kahnLoop_succ_nil (fuel : Nat) (m : List (String × Node)) (deg : String → Int)
    (queue order : List String) (idx : Int) (hs : sortQueue queue = []) :
    kahnLoop (fuel + 1) m deg queue order idx = (m, order, [], deg) := by
  simp only [kahnLoop]
  rw [hs]

theorem kahnLoop_succ_cons (fuel : Nat) (m : List (String × Node)) (deg : String → Int)
    (queue order : List String) (idx : Int) (nid : String) (rest : List String)
    (hs : sortQueue queue = nid :: rest) :
    kahnLoop (fuel + 1) m deg queue order idx =
      kahnLoop fuel (setExec m nid idx)
        ((connsOf m nid).foldl decStep (deg, rest)).1
        ((connsOf m nid).foldl decStep (deg, rest)).2
        (order ++ [nid]) (idx + 1) := by
  simp only [kahnLoop]
  rw [hs]

theorem kahnLoop_master (fuel : Nat) :
    ∀ (M m : List (String × Node)) (deg : String → Int) (queue order : List String)
      (idx : Int), KahnWF M → KahnInv M m deg queue order idx →
      queue.length + 2 * sumDeg M order ≤ fuel →
      ∃ mF ordF degF, kahnLoop fuel m deg queue order idx = (mF, ordF, [], degF) ∧
        KahnInv M mF degF [] ordF ((ordF.length : Int)) := by
  induction fuel with
  | zero =>
    intro M m deg queue order idx hWF inv hfuel
    have hq : queue = [] := by
      cases queue with
      | nil => rfl
      | cons a t =>
        exfalso
        simp only [List.length_cons] at hfuel
        omega
    subst hq
    refine ⟨m, order, deg, rfl, ?_⟩
    have h := inv.idx_eq
    subst h
    exact inv
  | succ fuel ih =>
    intro M m deg queue order idx hWF inv hfuel
    cases hs : sortQueue queue with
    | nil =>
      have hq : queue = [] := by
        have hp := sortQueue_perm queue
        rw [hs] at hp
        exact hp.symm.eq_nil
      subst hq
      refine ⟨m, order, deg, kahnLoop_succ_nil fuel m deg [] order idx hs, ?_⟩
      have h := inv.idx_eq
      subst h
      exact inv
    | cons nid rest =>
      have hperm : (nid :: rest).Perm queue := by
        rw [← hs]; exact sortQueue_perm queue
      have hsorted : List.Sorted (fun a b : String => a ≤ b) (nid :: rest) := by
        rw [← hs]; exact sortQueue_sorted queue
      have hcons_nodup : (nid :: rest).Nodup := (hperm.nodup_iff).mpr inv.queue_nodup
      have hnid_rest : nid ∉ rest := (List.nodup_cons.mp hcons_nodup).1
      have hrest_nodup : rest.Nodup := (List.nodup_cons.mp hcons_nodup).2
      have hnidq : nid ∈ queue := hperm.subset (List.mem_cons_self nid rest)
      obtain ⟨hnidk, hnidord, hnidres⟩ := inv.queue_sound nid hnidq
      have hleast : ∀ y, isReady M order y → nid ≤ y := by
        intro y hy
        have hyq : y ∈ queue := inv.queue_complete y hy
        have hy2 : y ∈ nid :: rest := (hperm.mem_iff).mpr hyq
        rcases List.mem_cons.mp hy2 with h1 | h1
        · exact le_of_eq h1.symm
        · exact (List.sorted_cons.mp hsorted).1 y h1
      have hord'_nodup : (order ++ [nid]).Nodup := by
        rw [List.nodup_append]
        exact ⟨inv.order_nodup, List.nodup_singleton nid,
          fun a ha hb => hnidord ((List.mem_singleton.mp hb) ▸ ha)⟩
      have hord'_sub : ∀ x ∈ order ++ [nid], x ∈ keysOf M := by
        intro x hx
        rcases List.mem_append.mp hx with h1 | h1
        · exact inv.order_sub x h1
        · exact (List.mem_singleton.mp h1) ▸ hnidk
      have hCM : connsOf m nid = connsOf M nid := connsOf_congr m M inv.strip_eq nid
      have htc : ∀ t, targetCount (connsOf m nid) t = connCount M nid t := by
        intro t
        rw [hCM]
        rfl
      have hub : ∀ t, (targetCount (connsOf m nid) t : Int) ≤ deg t := by
        intro t
        rw [htc t, inv.deg_eq t]
        have h1 := residualDeg_nonneg hWF (order ++ [nid]) hord'_nodup hord'_sub t
        rw [residualDeg_append_single] at h1
        omega
      obtain ⟨A, hA1, hA2, hA3, hA4, hA5⟩ := decStep_fold (connsOf m nid) deg rest hub
      have hdeg' : ∀ x, ((connsOf m nid).foldl decStep (deg, rest)).1 x =
          residualDeg M (order ++ [nid]) x := by
        intro x
        rw [hA2 x, htc x, inv.deg_eq x, residualDeg_append_single]
      have hresM : ∀ x ∈ rest, residualDeg M order x = 0 := fun x hx =>
        (inv.queue_sound x (hperm.subset (List.mem_cons_of_mem nid hx))).2.2
      have hApos : ∀ x ∈ A, 0 < residualDeg M order x ∧
          residualDeg M order x = (connCount M nid x : Int) := by
        intro x hx
        have h1 := (hA5 x).mp hx
        rw [inv.deg_eq x, htc x] at h1
        exact h1
      have hAkeys : ∀ x ∈ A, x ∈ keysOf M := by
        intro x hx
        obtain ⟨h1, h2⟩ := hApos x hx
        have h3 : 1 ≤ connCount M nid x := by omega
        exact conn_target_mem hWF hnidk h3
      have hsound' : ∀ x ∈ rest ++ A, isReady M (order ++ [nid]) x := by
        intro x hx
        rcases List.mem_append.mp hx with h1 | h1
        · obtain ⟨hk, hnord, hres⟩ :=
            inv.queue_sound x (hperm.subset (List.mem_cons_of_mem nid h1))
          have hxnid : x ≠ nid := fun he => hnid_rest (he ▸ h1)
          refine ⟨hk, ?_, ?_⟩
          · intro hmem
            rcases List.mem_append.mp hmem with h2 | h2
            · exact hnord h2
            · exact hxnid (List.mem_singleton.mp h2)
          · have h2 := residualDeg_nonneg hWF (order ++ [nid]) hord'_nodup hord'_sub x
            rw [residualDeg_append_single] at h2 ⊢
            omega
        · obtain ⟨h1a, h1b⟩ := hApos x h1
          have hxk := hAkeys x h1
          have hxord : x ∉ order := by
            intro hmem
            have h2 := residual_zero_of_emitted hWF order inv.order_nodup inv.order_sub
              (fun i hi => (inv.hist i hi).1) x hmem
            omega
          have hxnid : x ≠ nid := by
            intro he
            rw [he] at h1a
            omega
          refine ⟨hxk, ?_, ?_⟩
          · intro hmem
            rcases List.mem_append.mp hmem with h2 | h2
            · exact hxord h2
            · exact hxnid (List.mem_singleton.mp h2)
          · rw [residualDeg_append_single]
            omega
      have hcomplete' : ∀ x, isReady M (order ++ [nid]) x → x ∈ rest ++ A := by
        intro x hx
        obtain ⟨hk, hnord, hres⟩ := hx
        have hxord : x ∉ order := fun h2 => hnord (List.mem_append_left _ h2)
        have hxnid : x ≠ nid := fun he =>
          hnord (List.mem_append_right _ (he ▸ List.mem_singleton_self nid))
        rw [residualDeg_append_single] at hres
        by_cases hc : connCount M nid x = 0
        · have hx0 : residualDeg M order x = 0 := by omega
          have hxq : x ∈ queue := inv.queue_complete x ⟨hk, hxord, hx0⟩
          have hx2 : x ∈ nid :: rest := (hperm.mem_iff).mpr hxq
          rcases List.mem_cons.mp hx2 with h2 | h2
          · exact absurd h2 hxnid
          · exact List.mem_append_left _ h2
        · have hx1 : 0 < residualDeg M order x := by omega
          refine List.mem_append_right _ ((hA5 x).mpr ?_)
          rw [inv.deg_eq x, htc x]
          exact ⟨hx1, by omega⟩
      have hnodup' : (rest ++ A).Nodup := by
        rw [List.nodup_append]
        refine ⟨hrest_nodup, hA3, ?_⟩
        intro a ha hb
        have h1 := hresM a ha
        obtain ⟨h2, _⟩ := hApos a hb
        omega
      have hkeys' : keysOf (setExec m nid idx) = keysOf M := by
        rw [keysOf_setExec]
        exact inv.keys_eq
      have hstrip' : ∀ x, (dictLookup (setExec m nid idx) x).map stripExec =
          (dictLookup M x).map stripExec := by
        intro x
        by_cases hx : x = nid
        · subst hx
          rw [dictLookup_setExec_self, ← inv.strip_eq x]
          cases dictLookup m x <;> rfl
        · rw [dictLookup_setExec_ne m nid idx x hx]
          exact inv.strip_eq x
      have hexec' : ∀ x n, dictLookup (setExec m nid idx) x = some n →
          n.execution_order =
            (if x ∈ order ++ [nid] then (((order ++ [nid]).indexOf x : Int)) else -1) := by
        intro x n hl
        by_cases hx : x = nid
        · subst hx
          rw [dictLookup_setExec_self] at hl
          cases hl0 : dictLookup m x with
          | none => rw [hl0] at hl; cases hl
          | some n0 =>
            rw [hl0] at hl
            simp only [Option.map] at hl
            injection hl with hl
            have hmem : x ∈ order ++ [x] :=
              List.mem_append_right _ (List.mem_singleton_self x)
            rw [if_pos hmem, indexOf_append_self_of_not_mem order x hnidord, ← hl]
            show idx = (order.length : Int)
            exact inv.idx_eq
        · rw [dictLookup_setExec_ne m nid idx x hx] at hl
          have h1 := inv.exec_eq x n hl
          by_cases hmem : x ∈ order
          · have hmem' : x ∈ order ++ [nid] := List.mem_append_left _ hmem
            rw [if_pos hmem', indexOf_append_left_of_mem order [nid] x hmem, h1,
              if_pos hmem]
          · have hmem' : x ∉ order ++ [nid] := by
              intro h2
              rcases List.mem_append.mp h2 with h3 | h3
              · exact hmem h3
              · exact hx (List.mem_singleton.mp h3)
            rw [if_neg hmem', h1, if_neg hmem]
      have hhist' : ∀ i (hi : i < (order ++ [nid]).length),
          isReady M ((order ++ [nid]).take i) ((order ++ [nid]).get ⟨i, hi⟩) ∧
            ∀ y, isReady M ((order ++ [nid]).take i) y →
              (order ++ [nid]).get ⟨i, hi⟩ ≤ y := by
        intro i hi
        by_cases hio : i < order.length
        · have htake : (order ++ [nid]).take i = order.take i :=
            List.take_append_of_le_length (le_of_lt hio)
          have hget : (order ++ [nid]).get ⟨i, hi⟩ = order.get ⟨i, hio⟩ := by
            simp only [List.get_eq_getElem]
            exact List.getElem_append_left hio
          rw [htake, hget]
          exact inv.hist i hio
        · have hio2 : i = order.length := by
            have h2 : i < order.length + 1 := by
              simpa using hi
            omega
          subst hio2
          have htake : (order ++ [nid]).take order.length = order :=
            List.take_left order [nid]
          have hget : (order ++ [nid]).get ⟨order.length, hi⟩ = nid := by
            simp only [List.get_eq_getElem]
            exact List.getElem_concat_length order nid order.length rfl (by simp)
          rw [htake, hget]
          exact ⟨⟨hnidk, hnidord, hnidres⟩, hleast⟩
      have inv' : KahnInv M (setExec m nid idx)
          ((connsOf m nid).foldl decStep (deg, rest)).1
          ((connsOf m nid).foldl decStep (deg, rest)).2
          (order ++ [nid]) (idx + 1) := by
        refine ⟨hkeys', hstrip', hexec', hdeg', ?_, ?_, ?_, hord'_nodup, hord'_sub,
          ?_, hhist'⟩
        · rw [hA1]
          exact hnodup'
        · intro x hx
          rw [hA1] at hx
          exact hsound' x hx
        · intro x hx
          rw [hA1]
          exact hcomplete' x hx
        · rw [inv.idx_eq]
          simp only [List.length_append, List.length_singleton]
          push_cast
          omega
      have hqlen : queue.length = rest.length + 1 := by
        have h2 := hperm.length_eq
        simpa using h2.symm
      have hsum : sumDeg M (order ++ [nid]) +
          ((keysOf M).map (fun x => connCount M nid x)).sum = sumDeg M order :=
        sumDeg_step hWF order nid hord'_nodup hord'_sub
      have hAle : A.length ≤ ((keysOf M).map (fun x => connCount M nid x)).sum := by
        have h1 : A.length ≤ (A.map (fun x => connCount M nid x)).sum :=
          length_le_sum_of_one_le _ A (fun x hx => by
            obtain ⟨h2, h3⟩ := hApos x hx
            omega)
        have h2 : (A.map (fun x => connCount M nid x)).sum ≤
            ((keysOf M).map (fun x => connCount M nid x)).sum :=
          sum_map_le_of_nodup_subset _ hA3 hAkeys
        omega
      have hfuel' : ((connsOf m nid).foldl decStep (deg, rest)).2.length +
          2 * sumDeg M (order ++ [nid]) ≤ fuel := by
        rw [hA1]
        simp only [List.length_append]
        omega
      obtain ⟨mF, ordF, degF, hres, hinvF⟩ := ih M (setExec m nid idx)
        ((connsOf m nid).foldl decStep (deg, rest)).1
        ((connsOf m nid).foldl decStep (deg, rest)).2
        (order ++ [nid]) (idx + 1) hWF inv' hfuel'
      refine ⟨mF, ordF, degF, ?_, hinvF⟩
      rw [kahnLoop_succ_cons fuel m deg queue order idx nid rest hs]
      exact hres


/-! ## Execution-order post-conditions, uniqueness, precedence -/

theorem computeExecutionOrder_inv (M : List (String × Node)) (hWF : KahnWF M) :
    ∃ degF, KahnInv M (computeExecutionOrder M).1 degF []
      (computeExecutionOrder M).2 (((computeExecutionOrder M).2.length : Int)) := by
  have hinit := kahnInit_inv hWF
  have hfuel : ((M.map (·.1)).filter (fun x => deg0 M x == 0)).length +
      2 * sumDeg M [] ≤ kahnFuel M := by
    have h1 : ((M.map (·.1)).filter (fun x => deg0 M x == 0)).length ≤ M.length := by
      calc ((M.map (·.1)).filter (fun x => deg0 M x == 0)).length
          ≤ (M.map (·.1)).length := List.length_filter_le _ _
        _ = M.length := List.length_map _ _
    have h2 : sumDeg M [] = (M.map (fun p => linkInputCount p.2)).sum :=
      sumDeg_nil hWF.nodup
    unfold kahnFuel
    omega
  obtain ⟨mF, ordF, degF, hres, hinv⟩ := kahnLoop_master (kahnFuel M) M M (deg0 M)
    ((M.map (·.1)).filter (fun x => deg0 M x == 0)) [] 0 hWF hinit hfuel
  refine ⟨degF, ?_⟩
  have hc1 : (computeExecutionOrder M).1 = mF := by
    show (kahnLoop (kahnFuel M) M (deg0 M)
      ((M.map (·.1)).filter (fun x => deg0 M x == 0)) [] 0).1 = mF
    rw [hres]
  have hc2 : (computeExecutionOrder M).2 = ordF := by
    show (kahnLoop (kahnFuel M) M (deg0 M)
      ((M.map (·.1)).filter (fun x => deg0 M x == 0)) [] 0).2.1 = ordF
    rw [hres]
  rw [hc1, hc2]
  exact hinv

theorem kahn_take_eq (M : List (String × Node)) (o1 o2 : List String)
    (h1l : stepwiseLeast M o1) (h1c : kahnComplete M o1)
    (h2l : stepwiseLeast M o2) (h2c : kahnComplete M o2) :
    ∀ i, o1.take i = o2.take i := by
  intro i
  induction i with
  | zero => rfl
  | succ i ihi =>
    by_cases ha : i < o1.length
    · by_cases hb : i < o2.length
      · have hr1 := h1l i ha
        have hr2 := h2l i hb
        have hready2 : isReady M (o1.take i) (o2.get ⟨i, hb⟩) := by
          rw [ihi]
          exact hr2.1
        have hready1 : isReady M (o2.take i) (o1.get ⟨i, ha⟩) := by
          rw [← ihi]
          exact hr1.1
        have hle1 : o1.get ⟨i, ha⟩ ≤ o2.get ⟨i, hb⟩ := hr1.2 _ hready2
        have hle2 : o2.get ⟨i, hb⟩ ≤ o1.get ⟨i, ha⟩ := hr2.2 _ hready1
        have heq : o1.get ⟨i, ha⟩ = o2.get ⟨i, hb⟩ := le_antisymm hle1 hle2
        have heq2 : o1[i] = o2[i] := by
          simpa only [List.get_eq_getElem] using heq
        rw [List.take_succ, List.take_succ, ihi, List.getElem?_eq_getElem ha,
          List.getElem?_eq_getElem hb, heq2]
      · exfalso
        have ht2 : o2.take i = o2 := List.take_of_length_le (by omega)
        have hr1 := (h1l i ha).1
        rw [ihi, ht2] at hr1
        exact h2c _ hr1
    · by_cases hb : i < o2.length
      · exfalso
        have ht1 : o1.take i = o1 := List.take_of_length_le (by omega)
        have hr2 := (h2l i hb).1
        rw [← ihi, ht1] at hr2
        exact h1c _ hr2
      · have ht1 : o1.take (i + 1) = o1 := List.take_of_length_le (by omega)
        have ht2 : o2.take (i + 1) = o2 := List.take_of_length_le (by omega)
        have ht1i : o1.take i = o1 := List.take_of_length_le (by omega)
        have ht2i : o2.take i = o2 := List.take_of_length_le (by omega)
        rw [ht1, ht2]
        rw [ht1i, ht2i] at ihi
        exact ihi

theorem kahn_unique (M : List (String × Node)) (o1 o2 : List String)
    (h1l : stepwiseLeast M o1) (h1c : kahnComplete M o1)
    (h2l : stepwiseLeast M o2) (h2c : kahnComplete M o2) : o1 = o2 := by
  have h := kahn_take_eq M o1 o2 h1l h1c h2l h2c (max o1.length o2.length)
  rw [List.take_of_length_le (le_max_left _ _),
    List.take_of_length_le (le_max_right _ _)] at h
  exact h

theorem linkEdge_iff_connCount (m : List (String × Node)) (u v : String) :
    linkEdge m u v ↔ 1 ≤ connCount m u v := by
  unfold linkEdge connCount targetCount
  rw [List.mem_map]
  constructor
  · rintro ⟨c, hc, hcv⟩
    have h1 : c ∈ (connsOf m u).filter (fun c => c.1 = v) :=
      List.mem_filter.mpr ⟨hc, by simpa using hcv⟩
    have h2 : 0 < ((connsOf m u).filter (fun c => c.1 = v)).length :=
      List.length_pos.mpr (List.ne_nil_of_mem h1)
    omega
  · intro h
    have h2 : ((connsOf m u).filter (fun c => c.1 = v)) ≠ [] := by
      intro he
      rw [he] at h
      simp at h
    obtain ⟨c, hc⟩ := List.exists_mem_of_ne_nil _ h2
    have h3 := List.mem_filter.mp hc
    exact ⟨c, h3.1, by simpa using h3.2⟩

theorem emitted_sources_precede {M : List (String × Node)} (hWF : KahnWF M)
    (ord : List String) (hnd : ord.Nodup) (hsub : ∀ x ∈ ord, x ∈ keysOf M)
    (hleast : stepwiseLeast M ord)
    (u v : String) (hlink : linkEdge M u v) (hv : v ∈ ord) :
    u ∈ ord ∧ precedes ord u v := by
  have hcc : 1 ≤ connCount M u v := (linkEdge_iff_connCount M u v).mp hlink
  have huk : u ∈ keysOf M := by
    cases hlu : dictLookup M u with
    | none =>
      unfold connCount targetCount connsOf at hcc
      rw [hlu] at hcc
      simp at hcc
    | some n => exact (dictLookup_isSome_iff_mem M u).mp (by rw [hlu]; rfl)
  have hi : ord.indexOf v < ord.length := List.indexOf_lt_length.mpr hv
  have hget : ord.get ⟨ord.indexOf v, hi⟩ = v := List.indexOf_get hi
  have hready : isReady M (ord.take (ord.indexOf v)) v := by
    have h1 := (hleast (ord.indexOf v) hi).1
    rw [hget] at h1
    exact h1
  have hres0 : residualDeg M (ord.take (ord.indexOf v)) v = 0 := hready.2.2
  have htknd : (ord.take (ord.indexOf v)).Nodup :=
    List.Nodup.sublist (List.take_sublist (ord.indexOf v) ord) hnd
  have htksub : ∀ x ∈ ord.take (ord.indexOf v), x ∈ keysOf M := fun x hx =>
    hsub x (List.mem_of_mem_take hx)
  have hle1 : emittedConnsTo M (ord.take (ord.indexOf v)) v ≤ totalConnsTo M v :=
    emitted_le_total (ord.take (ord.indexOf v)) htknd htksub v
  have hle2 := totalConns_eq_resolved hWF v
  have hle3 := resolved_le_deg0 M v
  have heq : emittedConnsTo M (ord.take (ord.indexOf v)) v = totalConnsTo M v := by
    unfold residualDeg at hres0
    omega
  have humem : u ∈ ord.take (ord.indexOf v) := by
    by_contra hnot
    have hnd2 : (ord.take (ord.indexOf v) ++ [u]).Nodup := by
      rw [List.nodup_append]
      exact ⟨htknd, List.nodup_singleton u,
        fun a ha hb => hnot ((List.mem_singleton.mp hb) ▸ ha)⟩
    have hsub2 : ∀ x ∈ ord.take (ord.indexOf v) ++ [u], x ∈ keysOf M := by
      intro x hx
      rcases List.mem_append.mp hx with h1 | h1
      · exact htksub x h1
      · exact (List.mem_singleton.mp h1) ▸ huk
    have h4 : emittedConnsTo M (ord.take (ord.indexOf v) ++ [u]) v ≤
        totalConnsTo M v :=
      sum_map_le_of_nodup_subset _ hnd2 hsub2
    rw [emittedConnsTo_append] at h4
    have h6 : emittedConnsTo M [u] v = connCount M u v := by
      unfold emittedConnsTo
      simp
    omega
  have humem2 : u ∈ ord := List.mem_of_mem_take humem
  have h5 : ord.indexOf u < ord.indexOf v :=
    indexOf_lt_of_mem_take ord (ord.indexOf v) u humem
  exact ⟨humem2, humem2, hv, h5⟩


/-- C3, counterexample to the cycle clause: in `cyclicTailDoc` the node
`c` feeds `d` over a resolved link and `c` lies on no directed cycle
(its only path leads to the sink `d`), yet `c` does not precede `d` in
the computed order — both are omitted entirely, because `c` sits
downstream of the `a` ⇄ `b` cycle and its in-degree never reaches
zero. -/
theorem claim_C3_counterexample :
    linkEdge cyclicTailGraph.nodes "c" "d" ∧
    ¬ onCycle cyclicTailGraph.nodes "c" ∧
    ¬ precedes cyclicTailGraph.execution_order "c" "d" := by
  refine ⟨by decide, ?_, ?_⟩
  · intro hcyc
    have hcyc2 : Relation.TransGen (linkEdge cyclicTailGraph.nodes) "c" "c" := hcyc
    have hreach : ∀ y, Relation.TransGen (linkEdge cyclicTailGraph.nodes) "c" y →
        y = "d" := by
      intro y hy
      induction hy with
      | single h1 =>
        have h2 : ((connsOf cyclicTailGraph.nodes "c").map (·.1)) = ["d"] := by decide
        unfold linkEdge at h1
        rw [h2] at h1
        simpa using h1
      | tail h1 h2 ih =>
        rw [ih] at h2
        have h3 : ((connsOf cyclicTailGraph.nodes "d").map (·.1)) = [] := by decide
        unfold linkEdge at h2
        rw [h3] at h2
        simp at h2
    have h4 := hreach "c" hcyc2
    exact absurd h4 (by decide)
  · intro hp
    have h1 : cyclicTailGraph.execution_order = [] := by decide
    rw [h1] at hp
    obtain ⟨h2, _, _⟩ := hp
    exact absurd h2 (List.not_mem_nil "c")

/-- C3 (amended): for every successfully parsed document the computed
`execution_order` is a stepwise-least Kahn order — at each position the
emitted node is ready (present, unemitted, residual in-degree zero) and
is the lexicographically smallest ready node — it is maximal (no node
is left ready), it is the unique such order, every *emitted* node is
preceded by all sources of its resolved link inputs, and each node's
`execution_order` field equals its position in the order (`-1` when
omitted).  The original claim's cycle clause — `u` not on a cycle and
`u → v` imply `u` precedes `v` unconditionally — is refuted by
`claim_C3_counterexample`: nodes downstream of a cycle are omitted. -/
theorem claim_C3 (doc : Json) (g : WorkflowGraph) (h : parse doc = .ok g) :
    stepwiseLeast g.nodes g.execution_order ∧
    kahnComplete g.nodes g.execution_order ∧
    (∀ ord, stepwiseLeast g.nodes ord → kahnComplete g.nodes ord →
      ord = g.execution_order) ∧
    (∀ u v, linkEdge g.nodes u v → v ∈ g.execution_order →
      u ∈ g.execution_order ∧ precedes g.execution_order u v) ∧
    (∀ x n, dictLookup g.nodes x = some n →
      n.execution_order =
        (if x ∈ g.execution_order then ((g.execution_order.indexOf x : Int))
         else -1)) := by
  obtain ⟨fields, m0, hdoc, hpp, hn, ho⟩ := parse_ok_parts doc g h
  have hWF := parse_WF fields m0 hpp
  obtain ⟨degF, hinv⟩ := computeExecutionOrder_inv (resolveLinks m0) hWF
  rw [← hn, ← ho] at hinv
  have hsl : stepwiseLeast (resolveLinks m0) g.execution_order := hinv.hist
  have hcm : kahnComplete (resolveLinks m0) g.execution_order := by
    intro x hx
    have h2 := hinv.queue_complete x hx
    simp at h2
  have hk := hinv.keys_eq
  have hstr := hinv.strip_eq
  refine ⟨?_, ?_, ?_, ?_, hinv.exec_eq⟩
  · exact (stepwiseLeast_congr g.nodes (resolveLinks m0) hk hstr _).mpr hsl
  · exact (kahnComplete_congr g.nodes (resolveLinks m0) hk hstr _).mpr hcm
  · intro ord h1 h2
    exact kahn_unique (resolveLinks m0) ord g.execution_order
      ((stepwiseLeast_congr g.nodes (resolveLinks m0) hk hstr ord).mp h1)
      ((kahnComplete_congr g.nodes (resolveLinks m0) hk hstr ord).mp h2) hsl hcm
  · intro u v hl hv
    exact emitted_sources_precede hWF g.execution_order hinv.order_nodup
      hinv.order_sub hsl u v
      ((linkEdge_congr g.nodes (resolveLinks m0) hstr u v).mp hl) hv

/-- Witness for C3: the hypothesis is satisfiable — `cyclicTailDoc`
parses successfully into `cyclicTailGraph` and the conclusion holds
there. -/
theorem claim_C3_witness :
    parse cyclicTailDoc = .ok cyclicTailGraph ∧
    (stepwiseLeast cyclicTailGraph.nodes cyclicTailGraph.execution_order ∧
     kahnComplete cyclicTailGraph.nodes cyclicTailGraph.execution_order ∧
     (∀ ord, stepwiseLeast cyclicTailGraph.nodes ord →
       kahnComplete cyclicTailGraph.nodes ord →
       ord = cyclicTailGraph.execution_order) ∧
     (∀ u v, linkEdge cyclicTailGraph.nodes u v →
       v ∈ cyclicTailGraph.execution_order →
       u ∈ cyclicTailGraph.execution_order ∧
         precedes cyclicTailGraph.execution_order u v) ∧
     (∀ x n, dictLookup cyclicTailGraph.nodes x = some n →
       n.execution_order =
         (if x ∈ cyclicTailGraph.execution_order then
           ((cyclicTailGraph.execution_order.indexOf x : Int))
          else -1))) :=
  ⟨by rfl, claim_C3 cyclicTailDoc cyclicTailGraph (by rfl)⟩

/-- C4: for every well-shaped workflow document — cyclic or not — the
parser does not raise: `parse` succeeds, every node whose final
residual in-degree is non-zero is omitted from `execution_order` and
its `execution_order` field remains `-1`, and all other nodes are
ordered normally (the order is stepwise-least and their fields hold
their positions). -/
theorem claim_C4 (doc : Json) (h : wellShapedDoc doc = true) :
    ∃ g, parse doc = .ok g ∧
      stepwiseLeast g.nodes g.execution_order ∧
      (∀ x ∈ keysOf g.nodes,
        (residualDeg g.nodes g.execution_order x ≠ 0 ↔
          x ∉ g.execution_order)) ∧
      (∀ x n, dictLookup g.nodes x = some n → x ∉ g.execution_order →
        n.execution_order = -1) ∧
      (∀ x n, dictLookup g.nodes x = some n → x ∈ g.execution_order →
        n.execution_order = (g.execution_order.indexOf x : Int)) := by
  obtain ⟨g, hg⟩ := parse_ok_of_shape doc h
  obtain ⟨fields, m0, hdoc, hpp, hn, ho⟩ := parse_ok_parts doc g hg
  have hWF := parse_WF fields m0 hpp
  obtain ⟨degF, hinv⟩ := computeExecutionOrder_inv (resolveLinks m0) hWF
  rw [← hn, ← ho] at hinv
  have hsl : stepwiseLeast (resolveLinks m0) g.execution_order := hinv.hist
  have hk := hinv.keys_eq
  have hstr := hinv.strip_eq
  refine ⟨g, hg, ?_, ?_, ?_, ?_⟩
  · exact (stepwiseLeast_congr g.nodes (resolveLinks m0) hk hstr _).mpr hsl
  · intro x hx
    have hxM : x ∈ keysOf (resolveLinks m0) := by
      rw [← hk]
      exact hx
    have hcongr := residualDeg_congr g.nodes (resolveLinks m0) hstr
      g.execution_order x
    constructor
    · intro hne hmem
      have h0 := residual_zero_of_emitted hWF g.execution_order hinv.order_nodup
        hinv.order_sub (fun i hi => (hinv.hist i hi).1) x hmem
      rw [hcongr] at hne
      exact hne h0
    · intro hnm h0
      rw [hcongr] at h0
      have hready : isReady (resolveLinks m0) g.execution_order x :=
        ⟨hxM, hnm, h0⟩
      have h2 := hinv.queue_complete x hready
      simp at h2
  · intro x n hl hnm
    have h1 := hinv.exec_eq x n hl
    rw [if_neg hnm] at h1
    exact h1
  · intro x n hl hmem
    have h1 := hinv.exec_eq x n hl
    rw [if_pos hmem] at h1
    exact h1

/-- Witness for C4: the hypothesis is satisfiable — `cyclicTailDoc` is
well-shaped (and cyclic) and the conclusion holds for it. -/
theorem claim_C4_witness :
    wellShapedDoc cyclicTailDoc = true ∧
    (∃ g, parse cyclicTailDoc = .ok g ∧
      stepwiseLeast g.nodes g.execution_order ∧
      (∀ x ∈ keysOf g.nodes,
        (residualDeg g.nodes g.execution_order x ≠ 0 ↔
          x ∉ g.execution_order)) ∧
      (∀ x n, dictLookup g.nodes x = some n → x ∉ g.execution_order →
        n.execution_order = -1) ∧
      (∀ x n, dictLookup g.nodes x = some n → x ∈ g.execution_order →
        n.execution_order = (g.execution_order.indexOf x : Int))) :=
  ⟨by rfl, claim_C4 cyclicTailDoc (by rfl)⟩

end RawDiffusion
